import Mathlib

/-!
# Verification of the tinyflow reverse-mode autodiff core

A shallow embedding of the `tiny-flow` repository (`tinyflow/core.py`,
`tinyflow/ops.py`, `tinyflow/math.py`, `tinyflow/data.py`) together with
theorems settling the frozen claims about its specification.

Modelling conventions:

* Nodes are identified by natural numbers (Python object identity becomes an
  arena index).  Numeric values are rationals (`ℚ`); the repository's numeric
  backend (numpy) is external to the core per the spec, and the claims settled
  here are structural, not about floating-point rounding.
* Python dicts keyed by nodes become functions `ℕ → Option _`; Python sets of
  nodes become `Finset ℕ`.
* `set.pop()` in `topological_sort` removes an *arbitrary* element of a Python
  set.  We model the ready set as an insertion-ordered worklist (append on
  `add`, pop at the front), which is one possible behaviour of the source and
  exactly the deterministic tie-break the spec recommends.
* The unbounded `while` loops of `topological_sort` are modelled with an
  explicit fuel parameter; fuel exhaustion (`none`) stands for the call not
  returning.
-/

set_option maxRecDepth 10000

namespace TinyFlow

/-! ## `data.py`: the `Chainable` composition utility -/

/-- `Chainable.__init__` stores the wrapped function (`data.py`). -/
structure Chainable (α β : Type) where
  f : α → β

/-- `Chainable.__call__`: applying the wrapper applies the stored function. -/
def Chainable.call {α β : Type} (c : Chainable α β) (x : α) : β := c.f x

/-- `Chainable.__rshift__`: `self >> g` wraps `lambda *a: g(self(*a))`. -/
def Chainable.rshift {α β γ : Type} (c : Chainable α β) (g : β → γ) :
    Chainable α γ :=
  ⟨fun a => g (c.call a)⟩

/-- The `chainable` decorator wraps a function in a `Chainable`. -/
def chainable {α β : Type} (f : α → β) : Chainable α β := ⟨f⟩

/-! ## `ops.py`: `Node.__init__` edge bookkeeping

A node record holds the two wiring lists of `Node.__init__`.  The arena is the
list of all constructed nodes, each addressed by its index (construction
order). -/

/-- The wiring state a `Node` carries: `inbound_nodes` (fixed at construction)
and `outbound_nodes` (appended to by later constructions). -/
structure NodeRec where
  inbound : List ℕ
  outbound : List ℕ
deriving DecidableEq, Repr

/-- Replace the record at index `i` by `f` of it (used to model mutating one
node object of the arena in place). -/
def modifyAt : List NodeRec → ℕ → (NodeRec → NodeRec) → List NodeRec
  | [], _, _ => []
  | r :: rs, 0, f => f r :: rs
  | r :: rs, i + 1, f => r :: modifyAt rs i f

/-- `Node.__init__(inbound_nodes, name)`: the new node is created with the
given `inbound_nodes` and empty `outbound_nodes`, and then
`for node in self.inbound_nodes: node.outbound_nodes.append(self)` appends the
new node's id to each operand's outbound list, once per occurrence of the
operand. -/
def addNode (a : List NodeRec) (inb : List ℕ) : List NodeRec :=
  let newId := a.length
  let a2 := a ++ [⟨inb, []⟩]
  inb.foldl (fun acc o => modifyAt acc o fun r => ⟨r.inbound, r.outbound ++ [newId]⟩) a2

/-- A whole construction sequence: each entry is the inbound list passed to
one `Node.__init__` call, in construction order. -/
def buildArena (specs : List (List ℕ)) : List NodeRec :=
  specs.foldl addNode []

/-- Read a node record of the arena (`⟨[], []⟩` as an irrelevant default). -/
def arenaGet (a : List NodeRec) (i : ℕ) : NodeRec := a.getD i ⟨[], []⟩

/-! ## `core.py`: `topological_sort`

The source builds a dict `G` mapping each encountered node to a record
`{'in': set(), 'out': set()}` by a breadth-first sweep along `outbound_nodes`
(first `while` loop), then runs Kahn's algorithm on it (second `while` loop).
Only the `outbound_nodes` lists of the nodes are consulted, so the function is
modelled over an arbitrary `out : ℕ → List ℕ`. -/

/-- The dict `G` of `topological_sort`: registered nodes with their in/out
edge sets. -/
structure DState where
  keys : Finset ℕ
  ins : ℕ → Finset ℕ
  outs : ℕ → Finset ℕ

/-- `G = ` the empty dict. -/
def DState.empty : DState := ⟨∅, fun _ => ∅, fun _ => ∅⟩

/-- `if n not in G: G[n] = {'in': set(), 'out': set()}` — a fresh node starts
with empty edge sets (`DState.empty` already reads `∅` for unregistered
keys). -/
def registerNode (st : DState) (n : ℕ) : DState :=
  if n ∈ st.keys then st else ⟨insert n st.keys, st.ins, st.outs⟩

/-- `G[n]['out'].add(m); G[m]['in'].add(n)`. -/
def addEdge (st : DState) (n m : ℕ) : DState :=
  ⟨st.keys,
   fun k => if k = m then insert n (st.ins k) else st.ins k,
   fun k => if k = n then insert m (st.outs k) else st.outs k⟩

/-- The body of `for m in n.outbound_nodes` in the discovery loop: register
`m` if new and record the edge both ways.  (The worklist appends are
accounted for in `discoverLoop` itself.) -/
def visitConsumers (n : ℕ) (ms : List ℕ) (st : DState) : DState :=
  ms.foldl (fun acc m => addEdge (registerNode acc m) n m) st

/-- The first `while len(nodes) > 0` loop: pop the front of the worklist,
register it, record its out-edges, and append every consumer to the worklist
(unconditionally, even if seen before).  `fuel` bounds the number of
iterations; running out of fuel returns the pending worklist, so reaching
`([], _)` means the Python loop terminates. -/
def discoverLoop (out : ℕ → List ℕ) : ℕ → List ℕ → DState → List ℕ × DState
  | 0, wl, st => (wl, st)
  | _ + 1, [], st => ([], st)
  | fuel + 1, n :: rest, st =>
      discoverLoop out fuel (rest ++ out n) (visitConsumers n (out n) (registerNode st n))

/-- `S.add(m)` on the ready set, modelled as an insertion-ordered worklist:
adding an element already present is a no-op, a new element goes to the
back. -/
def sadd (S : List ℕ) (m : ℕ) : List ℕ := if m ∈ S then S else S ++ [m]

/-- The mutable state of the Kahn loop: the ready set `S` and the edge sets
of `G`. -/
structure KState where
  ready : List ℕ
  ins : ℕ → Finset ℕ
  outs : ℕ → Finset ℕ

/-- One edge removal of the Kahn loop body:
`G[n]['out'].remove(m); G[m]['in'].remove(n)` (Python `set.remove` raises
`KeyError` when the element is absent, modelled by `none`), then
`if len(G[m]['in']) == 0: S.add(m)`. -/
def removeOne (n : ℕ) (st : KState) (m : ℕ) : Option KState :=
  if m ∈ st.outs n then
    if n ∈ st.ins m then
      let ins2 : ℕ → Finset ℕ := fun k => if k = m then (st.ins m).erase n else st.ins k
      let outs2 : ℕ → Finset ℕ := fun k => if k = n then (st.outs n).erase m else st.outs k
      some ⟨if ins2 m = ∅ then sadd st.ready m else st.ready, ins2, outs2⟩
    else none
  else none

/-- `for m in n.outbound_nodes:` edge-removal loop of the Kahn phase. -/
def visitOut (n : ℕ) (ms : List ℕ) (st : KState) : Option KState :=
  ms.foldlM (fun acc m => removeOne n acc m) st

/-- The second `while len(S) > 0` loop: `n = S.pop()` (front of the
insertion-ordered ready set), `L.append(n)`, then remove `n`'s out-edges,
enqueueing consumers whose in-degree reaches zero.  `fuel` bounds the
iterations (`none` = did not finish). -/
def kahnLoop (out : ℕ → List ℕ) :
    ℕ → List ℕ → (ℕ → Finset ℕ) → (ℕ → Finset ℕ) → List ℕ → Option (List ℕ)
  | 0, S, _, _, L => if S = [] then some L else none
  | _ + 1, [], _, _, L => some L
  | fuel + 1, n :: S2, ins, outs, L =>
      match visitOut n (out n) ⟨S2, ins, outs⟩ with
      | none => none
      | some st2 => kahnLoop out fuel st2.ready st2.ins st2.outs (L ++ [n])

/-- `topological_sort(input_nodes)`: run the discovery sweep from the input
nodes, then Kahn's algorithm with `S = set(input_nodes)` and `L = []`.
`none` means the call does not return normally (the discovery loop does not
terminate within `fuel1`, the Kahn loop within `fuel2`, or a `KeyError` is
raised). -/
def topological_sort (out : ℕ → List ℕ) (fuel1 fuel2 : ℕ)
    (input_nodes : List ℕ) : Option (List ℕ) :=
  match discoverLoop out fuel1 input_nodes DState.empty with
  | (_ :: _, _) => none
  | ([], st) => kahnLoop out fuel2 (input_nodes.foldl sadd []) st.ins st.outs []

/-- The nodes discovered by the sweep: everything reachable from the roots
along `outbound_nodes` edges. -/
inductive Reach (out : ℕ → List ℕ) (roots : List ℕ) : ℕ → Prop
  | root {r : ℕ} : r ∈ roots → Reach out roots r
  | step {n m : ℕ} : Reach out roots n → m ∈ out n → Reach out roots m

/-! ### Termination of the discovery sweep

The discovery loop re-appends every consumer of the popped node, so it
terminates exactly on acyclic reachable subgraphs.  Acyclicity is supplied as
a rank function `h` strictly decreasing along every edge; the measure of a
worklist is `Σ (N+1)^(h x)` over its entries, where `N` bounds the length of
every outbound list. -/

/-- Termination measure of the discovery worklist. -/
def dMeasure (h : ℕ → ℕ) (N : ℕ) (wl : List ℕ) : ℕ :=
  (wl.map fun x => (N + 1) ^ h x).sum

/-! ### The discovered graph

An invariant over the discovery loop, tracking the (ghost) set `P` of nodes
already popped from the worklist. -/

structure DInv (out : ℕ → List ℕ) (roots : List ℕ) (P : Finset ℕ)
    (wl : List ℕ) (st : DState) : Prop where
  keys_iff : ∀ k, k ∈ st.keys ↔ (k ∈ P ∨ ∃ p ∈ P, k ∈ out p)
  ins_iff : ∀ m x, x ∈ st.ins m ↔ (x ∈ P ∧ m ∈ out x)
  outs_iff : ∀ n m, m ∈ st.outs n ↔ (n ∈ P ∧ m ∈ out n)
  wl_reach : ∀ x ∈ wl, Reach out roots x
  popped_reach : ∀ x ∈ P, Reach out roots x
  roots_pending : ∀ r ∈ roots, r ∈ P ∨ r ∈ wl
  closure_pending : ∀ p ∈ P, ∀ m ∈ out p, m ∈ P ∨ m ∈ wl

/-! ### Invariants of the Kahn phase

`KInv` relates the emitted prefix `L`, the pending ready set `S` and the
current edge sets.  `MidInv` is the same invariant in the middle of the
edge-removal loop for the node `n` just appended to `L`: `ms` is the suffix
of `out n` still to be processed (those edges are still present). -/

structure KInv (out : ℕ → List ℕ) (roots : List ℕ) (L S : List ℕ)
    (ins outs : ℕ → Finset ℕ) : Prop where
  L_nodup : L.Nodup
  S_nodup : S.Nodup
  disj : ∀ x ∈ L, x ∉ S
  L_reach : ∀ x ∈ L, Reach out roots x
  S_reach : ∀ x ∈ S, Reach out roots x
  ins_iff : ∀ m x, x ∈ ins m ↔ (Reach out roots x ∧ m ∈ out x ∧ x ∉ L)
  outs_iff : ∀ q m, m ∈ outs q ↔ (Reach out roots q ∧ m ∈ out q ∧ q ∉ L)
  sched : ∀ x, Reach out roots x → ((x ∈ L ∨ x ∈ S) ↔ ins x = ∅)
  roots_sched : ∀ r ∈ roots, r ∈ L ∨ r ∈ S
  order : ∀ p c, Reach out roots p → c ∈ out p → c ∈ L →
    p ∈ L ∧ L.indexOf p < L.indexOf c

structure MidInv (out : ℕ → List ℕ) (roots : List ℕ) (n : ℕ) (ms : List ℕ)
    (L2 S : List ℕ) (ins outs : ℕ → Finset ℕ) : Prop where
  L_nodup : L2.Nodup
  S_nodup : S.Nodup
  disj : ∀ x ∈ L2, x ∉ S
  L_reach : ∀ x ∈ L2, Reach out roots x
  S_reach : ∀ x ∈ S, Reach out roots x
  ins_iff : ∀ m x, x ∈ ins m ↔
    ((Reach out roots x ∧ m ∈ out x ∧ x ∉ L2) ∨ (x = n ∧ m ∈ ms))
  outs_iff : ∀ q m, m ∈ outs q ↔
    ((Reach out roots q ∧ m ∈ out q ∧ q ∉ L2) ∨ (q = n ∧ m ∈ ms))
  sched : ∀ x, Reach out roots x → ((x ∈ L2 ∨ x ∈ S) ↔ ins x = ∅)
  roots_sched : ∀ r ∈ roots, r ∈ L2 ∨ r ∈ S
  order : ∀ p c, Reach out roots p → c ∈ out p → c ∈ L2 →
    p ∈ L2 ∧ L2.indexOf p < L2.indexOf c
  n_in : n ∈ L2
  ms_sub : ∀ m ∈ ms, m ∈ out n
  ms_nodup : ms.Nodup

/-- A two-node graph, node `1` consuming node `0` (an `Input` node `x` and a
sink `MockGrad(x)` observing it, as wired by the repository's own tests). -/
def exOut : ℕ → List ℕ := fun n => if n = 0 then [1] else []

/-- A three-node chain `0 → 1 → 2`. -/
def chainOut : ℕ → List ℕ :=
  fun n => if n = 0 then [1] else if n = 1 then [2] else []

/-! ## `ops.py` and `core.py`: the evaluator

The scalar fragment of the operation set (`Input`, `MockGrad`, `Add`, `Mul` —
the variants exercised by the repository's scalar test and by the claims;
the matrix-backed variants delegate their arithmetic to the external numeric
backend).  Values are rationals; a node's `value` is `Option ℚ` (`none` is
Python's `None` before the first forward pass), and `gradients` is a
per-node dictionary `ℕ → Option ℚ`.

`core.py` dispatches the feed to `n.forward(...)`/`n.backward(...)` for
instances of `ForwardNode`/`BackwardNode`; those two classes are not defined
anywhere under `src/`.  Modelled from the spec: `ForwardNode` is the `Input`
variant ("zero inbound, takes external feed value") and `BackwardNode` is
the test-harness gradient-seed variant `MockGrad` ("passes its input through
unchanged on forward and injects an externally supplied gradient on
backward"); every other node's `forward()`/`backward()` reads only its
operands/consumers. -/

inductive Op
  | input
  | mock
  | add
  | mul
deriving DecidableEq, Repr

/-- The static wiring of a constructed graph: each node id has an operation
kind, its `inbound_nodes` and its `outbound_nodes`. -/
structure GraphOps where
  op : ℕ → Op
  inbound : ℕ → List ℕ
  outbound : ℕ → List ℕ

/-- The mutable per-node state: `value` and the `gradients` dictionaries. -/
structure EState where
  value : ℕ → Option ℚ
  grads : ℕ → ℕ → Option ℚ

/-- The error outcomes of `value_and_grad`: the failed
`assert node.outbound_nodes == []` (spec: InvalidGraph), a call that never
returns (cyclic graph), a `KeyError` (missing feed entry, missing gradient
entry, `set.remove` miss), and a `TypeError` (arithmetic on `None` /
unpacking the wrong number of operands). -/
inductive EvalErr
  | invalidTerminal
  | noReturn
  | keyError
  | typeError
deriving DecidableEq, Repr

/-- `feed_dict[n]`: look the node up among the feed entries (`none` is a
`KeyError`). -/
def feedLookup : List (ℕ × ℚ) → ℕ → Option ℚ
  | [], _ => none
  | (k, v) :: rest, n => if n = k then some v else feedLookup rest n

/-- `self.value = v`. -/
def setValue (st : EState) (n : ℕ) (v : Option ℚ) : EState :=
  ⟨fun k => if k = n then v else st.value k, st.grads⟩

/-- `self.gradients = g` (the whole dictionary is replaced). -/
def setGrads (st : EState) (n : ℕ) (g : ℕ → Option ℚ) : EState :=
  ⟨st.value, fun k => if k = n then g else st.grads k⟩

/-- `self.gradients[k] += d` on a gradient dictionary. -/
def bump (g : ℕ → Option ℚ) (k : ℕ) (d : ℚ) : ℕ → Option ℚ :=
  fun j => if j = k then (g k).map (fun v => v + d) else g j

/-- The dictionary each variant's `backward()` assigns to `self.gradients`
first, before any accumulation: `Add`/`Mul` assign
`{n: 0 for n in self.inbound_nodes}`, `Input` assigns `{self: 0}`, and
`MockGrad` assigns `{n: grad for n in self.inbound_nodes}` — the externally
seeded gradient, not zero. -/
def gradInit (op : Op) (selfId : ℕ) (inb : List ℕ) (seed : ℚ) : ℕ → Option ℚ :=
  match op with
  | Op.input => fun k => if k = selfId then some 0 else none
  | Op.mock => fun k => if k ∈ inb then some seed else none
  | Op.add => fun k => if k ∈ inb then some 0 else none
  | Op.mul => fun k => if k ∈ inb then some 0 else none

/-- One node's `forward()` as dispatched by the forward pass of
`value_and_grad`: `Input` consumes `feed_dict[n]` (KeyError when missing),
`MockGrad` copies `self.inbound_nodes[0].value` (even when that is still
`None`), `Add`/`Mul` unpack their two operand values and combine them
(`TypeError` on `None`). -/
def forwardStep (G : GraphOps) (feed : List (ℕ × ℚ)) (st : EState) (n : ℕ) :
    Except EvalErr EState :=
  match G.op n with
  | Op.input =>
      match feedLookup feed n with
      | some v => .ok (setValue st n (some v))
      | none => .error .keyError
  | Op.mock =>
      match G.inbound n with
      | i :: _ => .ok (setValue st n (st.value i))
      | [] => .error .typeError
  | Op.add =>
      match G.inbound n with
      | [a, b] =>
          match st.value a, st.value b with
          | some x, some y => .ok (setValue st n (some (x + y)))
          | _, _ => .error .typeError
      | _ => .error .typeError
  | Op.mul =>
      match G.inbound n with
      | [a, b] =>
          match st.value a, st.value b with
          | some x, some y => .ok (setValue st n (some (x * y)))
          | _, _ => .error .typeError
      | _ => .error .typeError

/-- The gradients dictionary one node's `backward()` ends up assigning to
`self.gradients`: `MockGrad` (the `BackwardNode` of the spec) maps every
operand to the externally fed seed; `Input` starts from `{self: 0}` and sums
`node.gradients[self]` over its consumers; `Add` (resp. `Mul`) starts from
zeros for its two operands and accumulates `1 * grad` (resp.
`y.value * grad` and `x.value * grad`) per consumer. -/
def backwardMap (G : GraphOps) (feed : List (ℕ × ℚ)) (st : EState) (n : ℕ) :
    Except EvalErr (ℕ → Option ℚ) :=
  match G.op n with
  | Op.mock =>
      match feedLookup feed n with
      | some g => .ok (gradInit Op.mock n (G.inbound n) g)
      | none => .error .keyError
  | Op.input =>
      (G.outbound n).foldlM
        (fun acc c =>
          match st.grads c n with
          | some gc => Except.ok (bump acc n gc)
          | none => Except.error EvalErr.keyError)
        (gradInit Op.input n (G.inbound n) 0)
  | Op.add =>
      match G.inbound n with
      | [a, b] =>
          (G.outbound n).foldlM
            (fun acc c =>
              match st.grads c n with
              | some gc => Except.ok (bump (bump acc a (1 * gc)) b (1 * gc))
              | none => Except.error EvalErr.keyError)
            (gradInit Op.add n (G.inbound n) 0)
      | _ => .error .typeError
  | Op.mul =>
      match G.inbound n with
      | [a, b] =>
          (G.outbound n).foldlM
            (fun acc c =>
              match st.grads c n, st.value a, st.value b with
              | some gc, some vx, some vy =>
                  Except.ok (bump (bump acc a (vy * gc)) b (vx * gc))
              | none, _, _ => Except.error EvalErr.keyError
              | _, _, _ => Except.error EvalErr.typeError)
            (gradInit Op.mul n (G.inbound n) 0)
      | _ => .error .typeError

/-- One node's `backward()` as dispatched by the backward pass: compute the
gradients dictionary and store it on the node. -/
def backwardStep (G : GraphOps) (feed : List (ℕ × ℚ)) (st : EState) (n : ℕ) :
    Except EvalErr EState :=
  match backwardMap G feed st n with
  | .ok g => .ok (setGrads st n g)
  | .error e => .error e

/-- The forward pass: `for n in nodes: n.forward(...)`. -/
def forwardFold (G : GraphOps) (feed : List (ℕ × ℚ)) (L : List ℕ)
    (st : EState) : Except EvalErr EState :=
  L.foldlM (forwardStep G feed) st

/-- The backward pass: `for n in nodes[::-1]: n.backward(...)` (the caller
passes the reversed order). -/
def backwardFold (G : GraphOps) (feed : List (ℕ × ℚ)) (L : List ℕ)
    (st : EState) : Except EvalErr EState :=
  L.foldlM (backwardStep G feed) st

/-- `[n.gradients[n] for n in wrt]` — the self-gradient of each `wrt` entry
(KeyError when absent). -/
def readGrads (st : EState) : List ℕ → Except EvalErr (List ℚ)
  | [] => .ok []
  | w :: ws =>
      match st.grads w w with
      | some q =>
          match readGrads st ws with
          | .ok qs => .ok (q :: qs)
          | .error e => .error e
      | none => .error .keyError

/-- `value_and_grad(node, feed_dict, wrt)`: assert the terminal has no
outbound consumers, topologically sort from the feed keys, run the forward
then the backward pass, and return `node.value` with the self-gradients of
the `wrt` nodes.  `wrt=None` is modelled as the empty list (`wrt if wrt
else []`). -/
def value_and_grad (G : GraphOps) (fuel1 fuel2 : ℕ) (node : ℕ)
    (feed : List (ℕ × ℚ)) (wrt : List ℕ) (st : EState) :
    Except EvalErr (Option ℚ × List ℚ) :=
  if G.outbound node = [] then
    match topological_sort G.outbound fuel1 fuel2 (feed.map Prod.fst) with
    | none => .error .noReturn
    | some nodes =>
        match forwardFold G feed nodes st with
        | .error e => .error e
        | .ok st1 =>
            match backwardFold G feed nodes.reverse st1 with
            | .error e => .error e
            | .ok st2 =>
                match readGrads st2 wrt with
                | .error e => .error e
                | .ok gs => .ok (st2.value node, gs)
  else .error .invalidTerminal

instance {ε α : Type} [DecidableEq ε] [DecidableEq α] :
    DecidableEq (Except ε α) := fun a b =>
  match a, b with
  | .ok x, .ok y =>
      if h : x = y then isTrue (by rw [h])
      else isFalse (fun hc => h (Except.ok.inj hc))
  | .error e, .error f =>
      if h : e = f then isTrue (by rw [h])
      else isFalse (fun hc => h (Except.error.inj hc))
  | .ok _, .error _ => isFalse (fun hc => Except.noConfusion hc)
  | .error _, .ok _ => isFalse (fun hc => Except.noConfusion hc)

/-- The fresh mutable state of a just-constructed graph: no values, no
gradients. -/
def blankState : EState := ⟨fun _ => none, fun _ _ => none⟩

/-- Scenario A of the spec and `tests.py::test_mul`: Inputs `x=0`, `y=1`,
`z=2`; `g = Mul(x, y) = 3`; `h = Mul(x, z) = 4`; `f = Add(g, h) = 5`;
`mock = MockGrad(f) = 6`. -/
def scenA : GraphOps where
  op := fun n =>
    if n ≤ 2 then Op.input
    else if n = 5 then Op.add
    else if n = 6 then Op.mock
    else Op.mul
  inbound := fun n =>
    if n = 3 then [0, 1]
    else if n = 4 then [0, 2]
    else if n = 5 then [3, 4]
    else if n = 6 then [5]
    else []
  outbound := fun n =>
    if n = 0 then [3, 4]
    else if n = 1 then [3]
    else if n = 2 then [4]
    else if n = 3 then [5]
    else if n = 4 then [5]
    else if n = 5 then [6]
    else []

/-- The two-node graph of `tests.py` style usage: `x = Input()` at id 0,
`mock = MockGrad(x)` at id 1. -/
def g3 : GraphOps where
  op := fun n => if n = 0 then Op.input else Op.mock
  inbound := fun n => if n = 1 then [0] else []
  outbound := fun n => if n = 0 then [1] else []

/-- The edge-bookkeeping invariant of an arena of constructed nodes. -/
structure ArenaGood (specs : List (List ℕ)) (a : List NodeRec) : Prop where
  len : a.length = specs.length
  inb : ∀ j, j < a.length → (arenaGet a j).inbound = specs.getD j []
  inb_lt : ∀ j, j < a.length → ∀ o ∈ (arenaGet a j).inbound, o < j
  outb_lt : ∀ i, i < a.length → ∀ c ∈ (arenaGet a i).outbound, c < a.length
  counts : ∀ i j, i < a.length → j < a.length →
    List.count j (arenaGet a i).outbound =
      List.count i (arenaGet a j).inbound

/-! ## `math.py` / `ops.py`: `CrossEntropyWithLogits.forward` (C6)

Matrices are lists of rows of rationals.  The spec treats the elementwise
functions of the numeric backend as opaque pure functions, so `exp` and
`log` are parameters `e` and `l`; the structure of the computation — which
entries of `probs` enter the average — is what the source fixes. -/

/-- `math.py::softmax`: `exp_x / np.sum(exp_x, axis=1, keepdims=True)` —
each row is exponentiated elementwise and divided by its row sum. -/
def softmax (e : ℚ → ℚ) (x : List (List ℚ)) : List (List ℚ) :=
  x.map fun row => row.map fun v => e v / (row.map e).sum

/-- Numpy fancy indexing `probs[:, y]` for a label vector `y`: the matrix
whose `(i, j)` entry is `probs[i][y[j]]` — every row is indexed with every
label, not just its own. -/
def colsAt (probs : List (List ℚ)) (y : List ℕ) : List (List ℚ) :=
  probs.map fun row => y.map fun lab => row.getD lab 0

/-- `np.average(-np.log(m))`: the mean of `-log` over all entries of the
matrix. -/
def negLogAvg (l : ℚ → ℚ) (m : List (List ℚ)) : ℚ :=
  (m.map fun row => (row.map fun p => -(l p)).sum).sum /
    ((m.map List.length).sum : ℕ)

/-- `CrossEntropyWithLogits.forward` as the source computes it:
`value = np.average(-np.log(probs[:, y]))` with `probs = softmax(x)`. -/
def ceForwardValue (e l : ℚ → ℚ) (x : List (List ℚ)) (y : List ℕ) : ℚ :=
  negLogAvg l (colsAt (softmax e x) y)

/-- `CrossEntropyWithLogits.forward`'s cache: `{'y_hat': probs}`. -/
def ceForwardCache (e : ℚ → ℚ) (x : List (List ℚ)) : List (List ℚ) :=
  softmax e x

/-- Modelled from the spec: "value = average over the batch of −log(probs at
the true-label column)" — row `i` contributes the probability at its own
label `y[i]`. -/
def ceForwardValueSpec (e l : ℚ → ℚ) (x : List (List ℚ)) (y : List ℕ) : ℚ :=
  (List.zipWith (fun row lab => -(l ((row : List ℚ).getD lab 0)))
    (softmax e x) y).sum / ((softmax e x).length : ℕ)

/-- A concrete stand-in for the backend's `exp` (any positive elementwise
function exhibits the indexing divergence). -/
def exp0 : ℚ → ℚ := fun t => if t = 0 then 1 else 2

/-- The discovered node set of a `topological_sort` run. -/
def keysOf (out : ℕ → List ℕ) (f1 : ℕ) (roots : List ℕ) : Finset ℕ :=
  ((discoverLoop out f1 roots DState.empty).2).keys

/-- A mock-free graph whose feed keys are true sources: inputs `0`, `1`
feeding `2 = Add(0, 1)`. -/
def g4 : GraphOps where
  op := fun n => if n = 2 then Op.add else Op.input
  inbound := fun n => if n = 2 then [0, 1] else []
  outbound := fun n => if n = 0 then [2] else if n = 1 then [2] else []

lemma dMeasure_nil (h : ℕ → ℕ) (N : ℕ) : dMeasure h N [] = 0 := rfl

lemma dMeasure_cons (h : ℕ → ℕ) (N : ℕ) (n : ℕ) (wl : List ℕ) :
    dMeasure h N (n :: wl) = (N + 1) ^ h n + dMeasure h N wl := by
  simp [dMeasure]

lemma dMeasure_append (h : ℕ → ℕ) (N : ℕ) (l1 l2 : List ℕ) :
    dMeasure h N (l1 ++ l2) = dMeasure h N l1 + dMeasure h N l2 := by
  simp [dMeasure]

lemma dMeasure_pos (h : ℕ → ℕ) (N : ℕ) (n : ℕ) (wl : List ℕ) :
    0 < dMeasure h N (n :: wl) := by
  have : 0 < (N + 1) ^ h n := Nat.pos_pow_of_pos _ (Nat.succ_pos N)
  rw [dMeasure_cons]; omega

/-- Popping a node and appending its consumers strictly shrinks the
measure. -/
lemma dMeasure_step (h : ℕ → ℕ) (N : ℕ) (out : ℕ → List ℕ) (n : ℕ)
    (rest : List ℕ) (hrank : ∀ m ∈ out n, h m < h n)
    (hlen : (out n).length ≤ N) :
    dMeasure h N (rest ++ out n) < dMeasure h N (n :: rest) := by
  rw [dMeasure_append, dMeasure_cons]
  have hout : dMeasure h N (out n) < (N + 1) ^ h n := by
    cases hn : h n with
    | zero =>
        have : out n = [] := by
          cases houtn : out n with
          | nil => rfl
          | cons a l =>
              have := hrank a (by rw [houtn]; exact List.mem_cons_self a l)
              omega
        simp [this, dMeasure]
    | succ k =>
        have hbound : ∀ x ∈ (out n).map fun x => (N + 1) ^ h x,
            x ≤ (N + 1) ^ k := by
          intro x hx
          rcases List.mem_map.mp hx with ⟨m, hm, rfl⟩
          exact Nat.pow_le_pow_right (Nat.succ_pos N) (by have := hrank m hm; omega)
        have hsum : dMeasure h N (out n) ≤ (out n).length * (N + 1) ^ k := by
          have := List.sum_le_card_nsmul ((out n).map fun x => (N + 1) ^ h x)
            ((N + 1) ^ k) hbound
          simpa [dMeasure, smul_eq_mul] using this
        calc dMeasure h N (out n) ≤ (out n).length * (N + 1) ^ k := hsum
          _ ≤ N * (N + 1) ^ k := Nat.mul_le_mul_right _ hlen
          _ < (N + 1) * (N + 1) ^ k := by
              have : 0 < (N + 1) ^ k := Nat.pos_pow_of_pos _ (Nat.succ_pos N)
              exact Nat.mul_lt_mul_of_lt_of_le (Nat.lt_succ_self N) (le_refl _) this
          _ = (N + 1) ^ (k + 1) := by ring
  omega

/-- With fuel at least the measure, the discovery loop empties its
worklist. -/
lemma discoverLoop_empties (out : ℕ → List ℕ) (N : ℕ) (h : ℕ → ℕ)
    (hclosed : ∀ n, n < N → ∀ m ∈ out n, m < N)
    (hrank : ∀ n, n < N → ∀ m ∈ out n, h m < h n)
    (hlen : ∀ n, n < N → (out n).length ≤ N) :
    ∀ fuel wl st, (∀ x ∈ wl, x < N) → dMeasure h N wl ≤ fuel →
    (discoverLoop out fuel wl st).1 = [] := by
  intro fuel
  induction fuel with
  | zero =>
      intro wl st _ hm
      cases wl with
      | nil => rfl
      | cons n rest => exact absurd hm (by have := dMeasure_pos h N n rest; omega)
  | succ fuel ih =>
      intro wl st hwl hm
      cases wl with
      | nil => rfl
      | cons n rest =>
          have hn : n < N := hwl n (List.mem_cons_self n rest)
          have hstep := dMeasure_step h N out n rest (hrank n hn) (hlen n hn)
          exact ih (rest ++ out n) _
            (by
              intro x hx
              rcases List.mem_append.mp hx with hx | hx
              · exact hwl x (List.mem_cons_of_mem n hx)
              · exact hclosed n hn x hx)
            (by omega)

lemma registerNode_keys (st : DState) (n k : ℕ) :
    k ∈ (registerNode st n).keys ↔ k ∈ st.keys ∨ k = n := by
  unfold registerNode
  by_cases h : n ∈ st.keys
  · simp only [if_pos h]
    exact ⟨Or.inl, fun hk => hk.elim id fun hk => hk ▸ h⟩
  · simp only [if_neg h, Finset.mem_insert]
    exact or_comm

lemma registerNode_ins (st : DState) (n : ℕ) :
    (registerNode st n).ins = st.ins := by
  unfold registerNode; split <;> rfl

lemma registerNode_outs (st : DState) (n : ℕ) :
    (registerNode st n).outs = st.outs := by
  unfold registerNode; split <;> rfl

lemma addEdge_keys (st : DState) (n m : ℕ) : (addEdge st n m).keys = st.keys :=
  rfl

lemma addEdge_ins (st : DState) (n m k x : ℕ) :
    x ∈ (addEdge st n m).ins k ↔ x ∈ st.ins k ∨ (x = n ∧ k = m) := by
  show x ∈ (if k = m then insert n (st.ins k) else st.ins k) ↔ _
  by_cases h : k = m <;> simp [h, or_comm]

lemma addEdge_outs (st : DState) (n m q y : ℕ) :
    y ∈ (addEdge st n m).outs q ↔ y ∈ st.outs q ∨ (q = n ∧ y = m) := by
  show y ∈ (if q = n then insert m (st.outs q) else st.outs q) ↔ _
  by_cases h : q = n <;> simp [h, or_comm]

lemma visitConsumers_spec (n : ℕ) (ms : List ℕ) (st : DState) :
    (∀ k, k ∈ (visitConsumers n ms st).keys ↔ k ∈ st.keys ∨ k ∈ ms) ∧
    (∀ m x, x ∈ (visitConsumers n ms st).ins m ↔
      x ∈ st.ins m ∨ (x = n ∧ m ∈ ms)) ∧
    (∀ q m, m ∈ (visitConsumers n ms st).outs q ↔
      m ∈ st.outs q ∨ (q = n ∧ m ∈ ms)) := by
  induction ms generalizing st with
  | nil => simp [visitConsumers]
  | cons m0 ms ih =>
      have hstep : visitConsumers n (m0 :: ms) st =
          visitConsumers n ms (addEdge (registerNode st m0) n m0) := rfl
      obtain ⟨hk, hi, ho⟩ := ih (addEdge (registerNode st m0) n m0)
      refine ⟨fun k => ?_, fun m x => ?_, fun q m => ?_⟩
      · rw [hstep, hk k, addEdge_keys, registerNode_keys]
        simp only [List.mem_cons]
        tauto
      · rw [hstep, hi m x, addEdge_ins, registerNode_ins]
        simp only [List.mem_cons]
        constructor
        · rintro ((h1 | ⟨rfl, rfl⟩) | ⟨rfl, h2⟩) <;> tauto
        · rintro (h1 | ⟨rfl, (h2 | h2)⟩) <;> tauto
      · rw [hstep, ho q m, addEdge_outs, registerNode_outs]
        simp only [List.mem_cons]
        constructor
        · rintro ((h1 | ⟨rfl, rfl⟩) | ⟨rfl, h2⟩) <;> tauto
        · rintro (h1 | ⟨rfl, (h2 | h2)⟩) <;> tauto

/-- One iteration of the discovery loop preserves the invariant. -/
lemma DInv_step (out : ℕ → List ℕ) (roots : List ℕ) (P : Finset ℕ)
    (n : ℕ) (rest : List ℕ) (st : DState)
    (h : DInv out roots P (n :: rest) st) :
    DInv out roots (insert n P) (rest ++ out n)
      (visitConsumers n (out n) (registerNode st n)) := by
  obtain ⟨hk, hi, ho⟩ := visitConsumers_spec n (out n) (registerNode st n)
  have hreach_n : Reach out roots n := h.wl_reach n (List.mem_cons_self n rest)
  refine ⟨fun k => ?_, fun m x => ?_, fun q m => ?_, ?_, ?_, ?_, ?_⟩
  · rw [hk k, registerNode_keys, h.keys_iff k, Finset.exists_mem_insert]
    simp only [Finset.mem_insert]
    constructor
    · rintro (((h1 | h1) | rfl) | h1)
      · exact Or.inl (Or.inr h1)
      · exact Or.inr (Or.inr h1)
      · exact Or.inl (Or.inl rfl)
      · exact Or.inr (Or.inl h1)
    · rintro ((rfl | h1) | h1 | h1)
      · exact Or.inl (Or.inr rfl)
      · exact Or.inl (Or.inl (Or.inl h1))
      · exact Or.inr h1
      · exact Or.inl (Or.inl (Or.inr h1))
  · rw [hi m x, registerNode_ins, h.ins_iff m x]
    simp only [Finset.mem_insert]
    constructor
    · rintro (⟨h1, h2⟩ | ⟨rfl, h2⟩) <;> tauto
    · rintro ⟨(rfl | h1), h2⟩ <;> tauto
  · rw [ho q m, registerNode_outs, h.outs_iff q m]
    simp only [Finset.mem_insert]
    constructor
    · rintro (⟨h1, h2⟩ | ⟨rfl, h2⟩) <;> tauto
    · rintro ⟨(rfl | h1), h2⟩ <;> tauto
  · intro x hx
    rcases List.mem_append.mp hx with hx | hx
    · exact h.wl_reach x (List.mem_cons_of_mem n hx)
    · exact Reach.step hreach_n hx
  · intro x hx
    rcases Finset.mem_insert.mp hx with rfl | hx
    · exact hreach_n
    · exact h.popped_reach x hx
  · intro r hr
    rcases h.roots_pending r hr with hP | hwl
    · exact Or.inl (Finset.mem_insert_of_mem hP)
    · rcases List.mem_cons.mp hwl with rfl | hwl
      · exact Or.inl (Finset.mem_insert_self _ _)
      · exact Or.inr (List.mem_append_left _ hwl)
  · intro p hp m hm
    rcases Finset.mem_insert.mp hp with rfl | hp
    · exact Or.inr (List.mem_append_right _ hm)
    · rcases h.closure_pending p hp m hm with hP | hwl
      · exact Or.inl (Finset.mem_insert_of_mem hP)
      · rcases List.mem_cons.mp hwl with rfl | hwl
        · exact Or.inl (Finset.mem_insert_self _ _)
        · exact Or.inr (List.mem_append_left _ hwl)

lemma discoverLoop_inv (out : ℕ → List ℕ) (roots : List ℕ) :
    ∀ fuel wl st P, DInv out roots P wl st →
    (discoverLoop out fuel wl st).1 = [] →
    ∃ Q, P ⊆ Q ∧ DInv out roots Q [] (discoverLoop out fuel wl st).2 := by
  intro fuel
  induction fuel with
  | zero =>
      intro wl st P hinv hrun
      have : wl = [] := hrun
      subst this
      exact ⟨P, le_refl _, hinv⟩
  | succ fuel ih =>
      intro wl st P hinv hrun
      cases wl with
      | nil => exact ⟨P, le_refl _, hinv⟩
      | cons n rest =>
          have hstep := DInv_step out roots P n rest st hinv
          have hrun2 : (discoverLoop out fuel (rest ++ out n)
              (visitConsumers n (out n) (registerNode st n))).1 = [] := hrun
          rcases ih _ _ _ hstep hrun2 with ⟨Q, hPQ, hQ⟩
          exact ⟨Q, le_trans (Finset.subset_insert n P) hPQ, hQ⟩

/-- When the discovery sweep finishes, `G` holds exactly the reachable nodes
and, restricted to them, exactly the real edges. -/
lemma discover_final (out : ℕ → List ℕ) (roots : List ℕ) (fuel : ℕ)
    (st2 : DState)
    (hrun : discoverLoop out fuel roots DState.empty = ([], st2)) :
    (∀ k, k ∈ st2.keys ↔ Reach out roots k) ∧
    (∀ m x, x ∈ st2.ins m ↔ (Reach out roots x ∧ m ∈ out x)) ∧
    (∀ q m, m ∈ st2.outs q ↔ (Reach out roots q ∧ m ∈ out q)) := by
  have hinit : DInv out roots ∅ roots DState.empty :=
    ⟨by simp [DState.empty], by simp [DState.empty], by simp [DState.empty],
     fun x hx => Reach.root hx, by simp, fun r hr => Or.inr hr, by simp⟩
  have h1 : (discoverLoop out fuel roots DState.empty).1 = [] := by rw [hrun]
  rcases discoverLoop_inv out roots fuel roots DState.empty ∅ hinit h1 with
    ⟨Q, _, hQ⟩
  rw [hrun] at hQ
  have hQreach : ∀ x, x ∈ Q ↔ Reach out roots x := by
    intro x
    constructor
    · exact hQ.popped_reach x
    · intro hx
      induction hx with
      | root hr =>
          rcases hQ.roots_pending _ hr with h | h
          · exact h
          · exact absurd h (List.not_mem_nil _)
      | step hn hm ihn =>
          rcases hQ.closure_pending _ ihn _ hm with h | h
          · exact h
          · exact absurd h (List.not_mem_nil _)
  refine ⟨fun k => ?_, fun m x => ?_, fun q m => ?_⟩
  · rw [hQ.keys_iff k]
    constructor
    · rintro (hk | ⟨p, hp, hout⟩)
      · exact (hQreach k).mp hk
      · exact Reach.step ((hQreach p).mp hp) hout
    · intro hk
      exact Or.inl ((hQreach k).mpr hk)
  · rw [hQ.ins_iff m x, hQreach x]
  · rw [hQ.outs_iff q m, hQreach q]

lemma sadd_mem (S : List ℕ) (m x : ℕ) : x ∈ sadd S m ↔ x ∈ S ∨ x = m := by
  unfold sadd
  by_cases h : m ∈ S
  · simp only [if_pos h]
    exact ⟨Or.inl, fun hx => hx.elim id fun hx => hx ▸ h⟩
  · simp [if_neg h]

lemma sadd_nodup (S : List ℕ) (m : ℕ) (h : S.Nodup) : (sadd S m).Nodup := by
  unfold sadd
  by_cases hm : m ∈ S
  · simpa [if_pos hm] using h
  · simp [if_neg hm, List.nodup_append, h, hm]

lemma foldl_sadd_mem (roots : List ℕ) :
    ∀ S x, (x ∈ roots.foldl sadd S ↔ x ∈ S ∨ x ∈ roots) := by
  induction roots with
  | nil => simp
  | cons r rs ih =>
      intro S x
      rw [List.foldl_cons, ih (sadd S r) x, sadd_mem]
      simp only [List.mem_cons]
      tauto

lemma foldl_sadd_nodup (roots : List ℕ) :
    ∀ S, S.Nodup → (roots.foldl sadd S).Nodup := by
  induction roots with
  | nil => exact fun S h => h
  | cons r rs ih => exact fun S h => ih (sadd S r) (sadd_nodup S r h)

/-- Popping the front node of the ready set establishes the mid-loop
invariant for its edge-removal sweep. -/
lemma KInv_pop (out : ℕ → List ℕ) (roots : List ℕ) (L S : List ℕ)
    (ins outs : ℕ → Finset ℕ) (n : ℕ) (S2 : List ℕ)
    (hS : S = n :: S2) (hinv : KInv out roots L S ins outs)
    (hself : n ∉ out n) (hnodup_out : (out n).Nodup) :
    MidInv out roots n (out n) (L ++ [n]) S2 ins outs := by
  subst hS
  have hnS : n ∈ n :: S2 := List.mem_cons_self n S2
  have hreach_n : Reach out roots n := hinv.S_reach n hnS
  have hnL : n ∉ L := fun h => hinv.disj n h hnS
  have hins_n : ins n = ∅ := (hinv.sched n hreach_n).mp (Or.inr hnS)
  have hmemL2 : ∀ x, x ∈ L ++ [n] ↔ x ∈ L ∨ x = n := by
    intro x; simp
  refine ⟨?_, ?_, ?_, ?_, ?_, ?_, ?_, ?_, ?_, ?_, ?_, ?_, ?_⟩
  · exact List.Nodup.append hinv.L_nodup (List.nodup_singleton n)
      (by simpa using hnL)
  · exact hinv.S_nodup.of_cons
  · intro x hx hxS2
    rcases (hmemL2 x).mp hx with hxL | rfl
    · exact hinv.disj x hxL (List.mem_cons_of_mem n hxS2)
    · exact (List.nodup_cons.mp hinv.S_nodup).1 hxS2
  · intro x hx
    rcases (hmemL2 x).mp hx with hxL | rfl
    · exact hinv.L_reach x hxL
    · exact hreach_n
  · exact fun x hx => hinv.S_reach x (List.mem_cons_of_mem n hx)
  · intro m x
    rw [hinv.ins_iff m x]
    constructor
    · rintro ⟨hr, hm, hxL⟩
      by_cases hx : x = n
      · subst hx; exact Or.inr ⟨rfl, hm⟩
      · exact Or.inl ⟨hr, hm, fun hc => ((hmemL2 x).mp hc).elim hxL hx⟩
    · rintro (⟨hr, hm, hxL2⟩ | ⟨rfl, hm⟩)
      · exact ⟨hr, hm, fun hc => hxL2 ((hmemL2 x).mpr (Or.inl hc))⟩
      · exact ⟨hreach_n, hm, hnL⟩
  · intro q m
    rw [hinv.outs_iff q m]
    constructor
    · rintro ⟨hr, hm, hqL⟩
      by_cases hq : q = n
      · subst hq; exact Or.inr ⟨rfl, hm⟩
      · exact Or.inl ⟨hr, hm, fun hc => ((hmemL2 q).mp hc).elim hqL hq⟩
    · rintro (⟨hr, hm, hqL2⟩ | ⟨rfl, hm⟩)
      · exact ⟨hr, hm, fun hc => hqL2 ((hmemL2 q).mpr (Or.inl hc))⟩
      · exact ⟨hreach_n, hm, hnL⟩
  · intro x hx
    rw [hmemL2 x]
    by_cases hxn : x = n
    · subst hxn
      simp only [or_true, true_or, true_iff]
      exact hins_n
    · rw [← hinv.sched x hx]
      constructor
      · rintro ((hxL | rfl) | hxS2)
        · exact Or.inl hxL
        · exact absurd rfl hxn
        · exact Or.inr (List.mem_cons_of_mem n hxS2)
      · rintro (hxL | hxS)
        · exact Or.inl (Or.inl hxL)
        · rcases List.mem_cons.mp hxS with rfl | hxS2
          · exact absurd rfl hxn
          · exact Or.inr hxS2
  · intro r hr
    rcases hinv.roots_sched r hr with hrL | hrS
    · exact Or.inl ((hmemL2 r).mpr (Or.inl hrL))
    · rcases List.mem_cons.mp hrS with rfl | hrS2
      · exact Or.inl ((hmemL2 r).mpr (Or.inr rfl))
      · exact Or.inr hrS2
  · intro p c hp hc hcL2
    rcases (hmemL2 c).mp hcL2 with hcL | rfl
    · rcases hinv.order p c hp hc hcL with ⟨hpL, hidx⟩
      refine ⟨(hmemL2 p).mpr (Or.inl hpL), ?_⟩
      rw [List.indexOf_append_of_mem hpL, List.indexOf_append_of_mem hcL]
      exact hidx
    · have hpL : p ∈ L := by
        by_contra hpL
        have : p ∈ ins c := (hinv.ins_iff c p).mpr ⟨hp, hc, hpL⟩
        rw [hins_n] at this
        exact absurd this (Finset.not_mem_empty p)
      refine ⟨(hmemL2 p).mpr (Or.inl hpL), ?_⟩
      rw [List.indexOf_append_of_mem hpL, List.indexOf_append_of_not_mem hnL,
        List.indexOf_cons_self]
      have := List.indexOf_lt_length.mpr hpL
      omega
  · exact (hmemL2 n).mpr (Or.inr rfl)
  · exact fun m hm => hm
  · exact hnodup_out

/-- The edge-removal sweep of a popped node succeeds (no `KeyError`) and
restores the plain invariant with the node appended. -/
lemma visitOut_sound (out : ℕ → List ℕ) (roots : List ℕ) (n : ℕ) :
    ∀ (ms : List ℕ) (L2 S : List ℕ) (ins outs : ℕ → Finset ℕ),
    MidInv out roots n ms L2 S ins outs →
    ∃ S2 ins2 outs2, visitOut n ms ⟨S, ins, outs⟩ = some ⟨S2, ins2, outs2⟩ ∧
      KInv out roots L2 S2 ins2 outs2 := by
  intro ms
  induction ms with
  | nil =>
      intro L2 S ins outs mid
      refine ⟨S, ins, outs, rfl, ?_⟩
      refine ⟨mid.L_nodup, mid.S_nodup, mid.disj, mid.L_reach, mid.S_reach,
        ?_, ?_, mid.sched, mid.roots_sched, mid.order⟩
      · intro m x
        rw [mid.ins_iff m x]
        simp
      · intro q m
        rw [mid.outs_iff q m]
        simp
  | cons m ms ih =>
      intro L2 S ins outs mid
      have hreach_n : Reach out roots n := mid.L_reach n mid.n_in
      have hmoutn : m ∈ out n := mid.ms_sub m (List.mem_cons_self m ms)
      have hreach_m : Reach out roots m := Reach.step hreach_n hmoutn
      have hm_outs : m ∈ outs n :=
        (mid.outs_iff n m).mpr (Or.inr ⟨rfl, List.mem_cons_self m ms⟩)
      have hn_ins : n ∈ ins m :=
        (mid.ins_iff m n).mpr (Or.inr ⟨rfl, List.mem_cons_self m ms⟩)
      have hm_not_ms : m ∉ ms := (List.nodup_cons.mp mid.ms_nodup).1
      have hms_nodup : ms.Nodup := (List.nodup_cons.mp mid.ms_nodup).2
      have hmL2 : m ∉ L2 := by
        intro hc
        have := (mid.sched m hreach_m).mp (Or.inl hc)
        rw [this] at hn_ins
        exact absurd hn_ins (Finset.not_mem_empty n)
      have hmS : m ∉ S := by
        intro hc
        have := (mid.sched m hreach_m).mp (Or.inr hc)
        rw [this] at hn_ins
        exact absurd hn_ins (Finset.not_mem_empty n)
      have hnL2 : n ∈ L2 := mid.n_in
      -- the updated edge sets after removing the edge n → m
      set ins2 : ℕ → Finset ℕ :=
        fun k => if k = m then (ins m).erase n else ins k with hins2
      set outs2 : ℕ → Finset ℕ :=
        fun k => if k = n then (outs n).erase m else outs k with houts2
      have hstep : visitOut n (m :: ms) ⟨S, ins, outs⟩ =
          visitOut n ms ⟨if ins2 m = ∅ then sadd S m else S, ins2, outs2⟩ := by
        show List.foldlM _ _ _ = _
        rw [List.foldlM_cons]
        have hro : removeOne n ⟨S, ins, outs⟩ m =
            some ⟨if ins2 m = ∅ then sadd S m else S, ins2, outs2⟩ := by
          unfold removeOne
          rw [if_pos hm_outs, if_pos hn_ins]
        rw [hro]
        rfl
      have hins2_at : ∀ q, ins2 q = if q = m then (ins m).erase n else ins q :=
        fun _ => rfl
      have houts2_at : ∀ q, outs2 q = if q = n then (outs n).erase m else outs q :=
        fun _ => rfl
      have hins2_iff : ∀ q x, x ∈ ins2 q ↔
          ((Reach out roots x ∧ q ∈ out x ∧ x ∉ L2) ∨ (x = n ∧ q ∈ ms)) := by
        intro q x
        by_cases hq : q = m
        · subst hq
          rw [hins2_at q, if_pos rfl, Finset.mem_erase, mid.ins_iff q x]
          constructor
          · rintro ⟨hxn, (⟨hr, hout, hxL⟩ | ⟨rfl, _⟩)⟩
            · exact Or.inl ⟨hr, hout, hxL⟩
            · exact absurd rfl hxn
          · rintro (⟨hr, hout, hxL⟩ | ⟨rfl, hq2⟩)
            · exact ⟨fun hxn => hxL (hxn ▸ hnL2), Or.inl ⟨hr, hout, hxL⟩⟩
            · exact absurd hq2 hm_not_ms
        · rw [hins2_at q, if_neg hq, mid.ins_iff q x]
          simp only [List.mem_cons]
          constructor
          · rintro (h1 | ⟨rfl, (rfl | h2)⟩)
            · exact Or.inl h1
            · exact absurd rfl hq
            · exact Or.inr ⟨rfl, h2⟩
          · rintro (h1 | ⟨rfl, h2⟩)
            · exact Or.inl h1
            · exact Or.inr ⟨rfl, Or.inr h2⟩
      have houts2_iff : ∀ q y, y ∈ outs2 q ↔
          ((Reach out roots q ∧ y ∈ out q ∧ q ∉ L2) ∨ (q = n ∧ y ∈ ms)) := by
        intro q y
        by_cases hq : q = n
        · subst hq
          rw [houts2_at q, if_pos rfl, Finset.mem_erase, mid.outs_iff q y]
          constructor
          · rintro ⟨hym, (⟨_, _, hqL⟩ | ⟨_, hy⟩)⟩
            · exact absurd hnL2 hqL
            · rcases List.mem_cons.mp hy with rfl | hy2
              · exact absurd rfl hym
              · exact Or.inr ⟨rfl, hy2⟩
          · rintro (⟨_, _, hqL⟩ | ⟨_, hy⟩)
            · exact absurd hnL2 hqL
            · exact ⟨fun hym => hm_not_ms (hym ▸ hy),
                Or.inr ⟨rfl, List.mem_cons_of_mem m hy⟩⟩
        · rw [houts2_at q, if_neg hq, mid.outs_iff q y]
          constructor
          · rintro (h1 | ⟨rfl, _⟩)
            · exact Or.inl h1
            · exact absurd rfl hq
          · rintro (h1 | ⟨rfl, _⟩)
            · exact Or.inl h1
            · exact absurd rfl hq
      rw [hstep]
      apply ih
      by_cases hempty : ins2 m = ∅
      · rw [if_pos hempty]
        have hSadd : sadd S m = S ++ [m] := by unfold sadd; rw [if_neg hmS]
        refine ⟨mid.L_nodup, ?_, ?_, mid.L_reach, ?_, hins2_iff, houts2_iff,
          ?_, ?_, mid.order, mid.n_in, ?_, hms_nodup⟩
        · rw [hSadd]
          exact List.Nodup.append mid.S_nodup (List.nodup_singleton m)
            (by simpa using hmS)
        · intro x hx hxS
          rw [hSadd] at hxS
          rcases List.mem_append.mp hxS with hxS | hxm
          · exact mid.disj x hx hxS
          · rcases List.mem_singleton.mp hxm with rfl
            exact hmL2 hx
        · intro x hx
          rw [hSadd] at hx
          rcases List.mem_append.mp hx with hx | hx
          · exact mid.S_reach x hx
          · rcases List.mem_singleton.mp hx with rfl
            exact hreach_m
        · intro x hx
          by_cases hxm : x = m
          · subst hxm
            constructor
            · intro _; exact hempty
            · intro _
              rw [hSadd]
              exact Or.inr (List.mem_append_right S (List.mem_singleton_self x))
          · have he : ins2 x = ins x := by rw [hins2_at x, if_neg hxm]
            rw [he, ← mid.sched x hx, hSadd]
            simp only [List.mem_append, List.mem_singleton]
            tauto
        · intro r hr
          rcases mid.roots_sched r hr with h1 | h1
          · exact Or.inl h1
          · rw [hSadd]
            exact Or.inr (List.mem_append_left _ h1)
        · exact fun y hy => mid.ms_sub y (List.mem_cons_of_mem m hy)
      · rw [if_neg hempty]
        refine ⟨mid.L_nodup, mid.S_nodup, mid.disj, mid.L_reach, mid.S_reach,
          hins2_iff, houts2_iff, ?_, mid.roots_sched, mid.order, mid.n_in,
          ?_, hms_nodup⟩
        · intro x hx
          by_cases hxm : x = m
          · subst hxm
            constructor
            · rintro (hc | hc)
              · exact absurd hc hmL2
              · exact absurd hc hmS
            · intro hc
              exact absurd hc hempty
          · have he : ins2 x = ins x := by rw [hins2_at x, if_neg hxm]
            rw [he]
            exact mid.sched x hx
        · exact fun y hy => mid.ms_sub y (List.mem_cons_of_mem m hy)

/-- The Kahn phase starts in the invariant when every root is a true source
of the discovered graph. -/
lemma KInv_init (out : ℕ → List ℕ) (roots : List ℕ)
    (ins outs : ℕ → Finset ℕ)
    (hins : ∀ m x, x ∈ ins m ↔ (Reach out roots x ∧ m ∈ out x))
    (houts : ∀ q m, m ∈ outs q ↔ (Reach out roots q ∧ m ∈ out q))
    (hsrc : ∀ r ∈ roots, ∀ p, Reach out roots p → r ∉ out p) :
    KInv out roots [] (roots.foldl sadd []) ins outs := by
  refine ⟨List.nodup_nil, foldl_sadd_nodup roots [] List.nodup_nil,
    ?_, ?_, ?_, ?_, ?_, ?_, ?_, ?_⟩
  · intro x hx; exact absurd hx (List.not_mem_nil x)
  · intro x hx; exact absurd hx (List.not_mem_nil x)
  · intro x hx
    rcases (foldl_sadd_mem roots [] x).mp hx with h | h
    · exact absurd h (List.not_mem_nil x)
    · exact Reach.root h
  · intro m x
    rw [hins m x]
    simp
  · intro q m
    rw [houts q m]
    simp
  · intro x hx
    constructor
    · rintro (h | h)
      · exact absurd h (List.not_mem_nil x)
      · rcases (foldl_sadd_mem roots [] x).mp h with h2 | h2
        · exact absurd h2 (List.not_mem_nil x)
        · rw [Finset.eq_empty_iff_forall_not_mem]
          intro p hp
          rcases (hins x p).mp hp with ⟨hr, hout⟩
          exact hsrc x h2 p hr hout
    · intro hempty
      refine Or.inr ((foldl_sadd_mem roots [] x).mpr (Or.inr ?_))
      cases hx with
      | root h => exact h
      | step hp hout =>
          rename_i p
          exfalso
          have : p ∈ ins x := (hins x p).mpr ⟨hp, hout⟩
          rw [hempty] at this
          exact absurd this (Finset.not_mem_empty p)
  · intro r hr
    exact Or.inr ((foldl_sadd_mem roots [] r).mpr (Or.inr hr))
  · intro p c _ _ hc
    exact absurd hc (List.not_mem_nil c)

/-- If the Kahn loop returns a list, the invariant holds for it with an
exhausted ready set. -/
lemma kahnLoop_sound (out : ℕ → List ℕ) (roots : List ℕ)
    (hself : ∀ p, Reach out roots p → p ∉ out p)
    (hnodup_out : ∀ p, Reach out roots p → (out p).Nodup) :
    ∀ (fuel : ℕ) (L S : List ℕ) (ins outs : ℕ → Finset ℕ) (Lf : List ℕ),
    KInv out roots L S ins outs →
    kahnLoop out fuel S ins outs L = some Lf →
    ∃ ins2 outs2, KInv out roots Lf [] ins2 outs2 := by
  intro fuel
  induction fuel with
  | zero =>
      intro L S ins outs Lf hinv hrun
      unfold kahnLoop at hrun
      by_cases hS : S = []
      · rw [if_pos hS] at hrun
        subst hS
        cases hrun
        exact ⟨ins, outs, hinv⟩
      · rw [if_neg hS] at hrun
        cases hrun
  | succ fuel ih =>
      intro L S ins outs Lf hinv hrun
      cases S with
      | nil =>
          cases hrun
          exact ⟨ins, outs, hinv⟩
      | cons n S2 =>
          have hreach_n : Reach out roots n :=
            hinv.S_reach n (List.mem_cons_self n S2)
          have hmid := KInv_pop out roots L (n :: S2) ins outs n S2 rfl hinv
            (hself n hreach_n) (hnodup_out n hreach_n)
          rcases visitOut_sound out roots n (out n) (L ++ [n]) S2 ins outs hmid
            with ⟨S3, ins3, outs3, hvisit, hinv3⟩
          rw [show kahnLoop out (fuel + 1) (n :: S2) ins outs L =
              match visitOut n (out n) ⟨S2, ins, outs⟩ with
              | none => none
              | some st2 =>
                  kahnLoop out fuel st2.ready st2.ins st2.outs (L ++ [n])
              from rfl, hvisit] at hrun
          exact ih (L ++ [n]) S3 ins3 outs3 Lf hinv3 hrun

/-- With fuel beyond the number of reachable nodes, the Kahn loop returns. -/
lemma kahnLoop_complete (out : ℕ → List ℕ) (roots : List ℕ) (R : Finset ℕ)
    (hR : ∀ x, x ∈ R ↔ Reach out roots x)
    (hself : ∀ p, Reach out roots p → p ∉ out p)
    (hnodup_out : ∀ p, Reach out roots p → (out p).Nodup) :
    ∀ (fuel : ℕ) (L S : List ℕ) (ins outs : ℕ → Finset ℕ),
    KInv out roots L S ins outs →
    R.card + 1 ≤ fuel + L.length →
    ∃ Lf, kahnLoop out fuel S ins outs L = some Lf := by
  intro fuel
  induction fuel with
  | zero =>
      intro L S ins outs hinv hcard
      exfalso
      have hsub : L.toFinset ⊆ R := by
        intro x hx
        exact (hR x).mpr (hinv.L_reach x (List.mem_toFinset.mp hx))
      have hlen : L.length ≤ R.card := by
        rw [← List.toFinset_card_of_nodup hinv.L_nodup]
        exact Finset.card_le_card hsub
      omega
  | succ fuel ih =>
      intro L S ins outs hinv hcard
      cases S with
      | nil => exact ⟨L, rfl⟩
      | cons n S2 =>
          have hreach_n : Reach out roots n :=
            hinv.S_reach n (List.mem_cons_self n S2)
          have hmid := KInv_pop out roots L (n :: S2) ins outs n S2 rfl hinv
            (hself n hreach_n) (hnodup_out n hreach_n)
          rcases visitOut_sound out roots n (out n) (L ++ [n]) S2 ins outs hmid
            with ⟨S3, ins3, outs3, hvisit, hinv3⟩
          rcases ih (L ++ [n]) S3 ins3 outs3 hinv3
            (by rw [List.length_append, List.length_singleton]; omega)
            with ⟨Lf, hLf⟩
          refine ⟨Lf, ?_⟩
          rw [show kahnLoop out (fuel + 1) (n :: S2) ins outs L =
              match visitOut n (out n) ⟨S2, ins, outs⟩ with
              | none => none
              | some st2 =>
                  kahnLoop out fuel st2.ready st2.ins st2.outs (L ++ [n])
              from rfl, hvisit]
          exact hLf

/-- At the end of the Kahn loop every reachable node has been emitted
(maximal-rank argument; `h` is the acyclicity witness). -/
lemma KInv_final_complete (out : ℕ → List ℕ) (roots : List ℕ) (R : Finset ℕ)
    (hR : ∀ x, x ∈ R ↔ Reach out roots x) (h : ℕ → ℕ)
    (hrank : ∀ p, Reach out roots p → ∀ m ∈ out p, h m < h p)
    (Lf : List ℕ) (ins outs : ℕ → Finset ℕ)
    (hinv : KInv out roots Lf [] ins outs) :
    ∀ x, Reach out roots x → x ∈ Lf := by
  intro x hx
  by_contra hxL
  have hne : (R.filter (fun y => y ∉ Lf)).Nonempty :=
    ⟨x, Finset.mem_filter.mpr ⟨(hR x).mpr hx, hxL⟩⟩
  rcases Finset.exists_max_image (R.filter (fun y => y ∉ Lf)) h hne with
    ⟨b, hb, hbmax⟩
  rcases Finset.mem_filter.mp hb with ⟨hbR, hbL⟩
  have hbreach : Reach out roots b := (hR b).mp hbR
  have hbins : ins b ≠ ∅ := by
    intro hc
    rcases (hinv.sched b hbreach).mpr hc with hc2 | hc2
    · exact hbL hc2
    · exact absurd hc2 (List.not_mem_nil b)
  rcases Finset.nonempty_iff_ne_empty.mpr hbins with ⟨p, hp⟩
  rcases (hinv.ins_iff b p).mp hp with ⟨hpreach, hpb, hpL⟩
  have hpfilter : p ∈ R.filter (fun y => y ∉ Lf) :=
    Finset.mem_filter.mpr ⟨(hR p).mpr hpreach, hpL⟩
  have h1 : h b < h p := hrank p hpreach b hpb
  have h2 : h p ≤ h b := hbmax p hpfilter
  omega

/-- Everything reachable from roots below `N` stays below `N` when `N` is
closed under the outbound lists. -/
lemma reach_lt (out : ℕ → List ℕ) (roots : List ℕ) (N : ℕ)
    (h1 : ∀ r ∈ roots, r < N)
    (h2 : ∀ n, n < N → ∀ m ∈ out n, m < N) :
    ∀ x, Reach out roots x → x < N := by
  intro x hx
  induction hx with
  | root hr => exact h1 _ hr
  | step _ hm ihn => exact h2 _ ihn _ hm

/-- Soundness of a successful `topological_sort` run: under the graph
preconditions (bounded universe `N`, rank function `h` certifying
acyclicity, duplicate-free outbound lists, roots that are true sources) the
returned list enumerates the reachable nodes exactly once in
producer-before-consumer order. -/
lemma topological_sort_props (out : ℕ → List ℕ) (roots : List ℕ) (N : ℕ)
    (h : ℕ → ℕ)
    (h1 : ∀ r ∈ roots, r < N)
    (h2 : ∀ n, n < N → ∀ m ∈ out n, m < N)
    (h3 : ∀ n, n < N → ∀ m ∈ out n, h m < h n)
    (h4 : ∀ n, n < N → (out n).Nodup)
    (h6 : ∀ r ∈ roots, ∀ p, p < N → r ∉ out p)
    (f1 f2 : ℕ) (L : List ℕ)
    (hrun : topological_sort out f1 f2 roots = some L) :
    L.Nodup ∧ (∀ x, x ∈ L ↔ Reach out roots x) ∧
    (∀ p c, Reach out roots p → c ∈ out p →
      p ∈ L ∧ c ∈ L ∧ L.indexOf p < L.indexOf c) := by
  have hlt := reach_lt out roots N h1 h2
  have hrank : ∀ p, Reach out roots p → ∀ m ∈ out p, h m < h p :=
    fun p hp => h3 p (hlt p hp)
  have hself : ∀ p, Reach out roots p → p ∉ out p := by
    intro p hp hc
    exact absurd (hrank p hp p hc) (lt_irrefl _)
  have hnodup_out : ∀ p, Reach out roots p → (out p).Nodup :=
    fun p hp => h4 p (hlt p hp)
  have hsrc : ∀ r ∈ roots, ∀ p, Reach out roots p → r ∉ out p :=
    fun r hr p hp => h6 r hr p (hlt p hp)
  unfold topological_sort at hrun
  rcases hd : discoverLoop out f1 roots DState.empty with ⟨wl, st⟩
  rw [hd] at hrun
  cases wl with
  | cons a l => cases hrun
  | nil =>
      obtain ⟨hkeys, hins, houts⟩ := discover_final out roots f1 st hd
      have hinit := KInv_init out roots st.ins st.outs hins houts hsrc
      rcases kahnLoop_sound out roots hself hnodup_out f2 []
        (roots.foldl sadd []) st.ins st.outs L hinit hrun with
        ⟨ins2, outs2, hfin⟩
      have hcomp := KInv_final_complete out roots st.keys hkeys h hrank L
        ins2 outs2 hfin
      refine ⟨hfin.L_nodup, fun x => ⟨hfin.L_reach x, hcomp x⟩, ?_⟩
      intro p c hp hc
      have hcL : c ∈ L := hcomp c (Reach.step hp hc)
      rcases hfin.order p c hp hc hcL with ⟨hpL, hidx⟩
      exact ⟨hpL, hcL, hidx⟩

/-- Termination: under the same preconditions some fuel makes
`topological_sort` return. -/
lemma topological_sort_exists (out : ℕ → List ℕ) (roots : List ℕ) (N : ℕ)
    (h : ℕ → ℕ)
    (h1 : ∀ r ∈ roots, r < N)
    (h2 : ∀ n, n < N → ∀ m ∈ out n, m < N)
    (h3 : ∀ n, n < N → ∀ m ∈ out n, h m < h n)
    (h4 : ∀ n, n < N → (out n).Nodup)
    (h5 : ∀ n, n < N → (out n).length ≤ N)
    (h6 : ∀ r ∈ roots, ∀ p, p < N → r ∉ out p) :
    ∃ f1 f2 L, topological_sort out f1 f2 roots = some L := by
  have hlt := reach_lt out roots N h1 h2
  have hrank : ∀ p, Reach out roots p → ∀ m ∈ out p, h m < h p :=
    fun p hp => h3 p (hlt p hp)
  have hself : ∀ p, Reach out roots p → p ∉ out p := by
    intro p hp hc
    exact absurd (hrank p hp p hc) (lt_irrefl _)
  have hnodup_out : ∀ p, Reach out roots p → (out p).Nodup :=
    fun p hp => h4 p (hlt p hp)
  have hsrc : ∀ r ∈ roots, ∀ p, Reach out roots p → r ∉ out p :=
    fun r hr p hp => h6 r hr p (hlt p hp)
  have hempty := discoverLoop_empties out N h h2 h3 h5
    (dMeasure h N roots) roots DState.empty h1 (le_refl _)
  rcases hd : discoverLoop out (dMeasure h N roots) roots DState.empty with
    ⟨wl, st⟩
  rw [hd] at hempty
  cases wl with
  | cons a l => cases hempty
  | nil =>
      obtain ⟨hkeys, hins, houts⟩ := discover_final out roots _ st hd
      have hinit := KInv_init out roots st.ins st.outs hins houts hsrc
      rcases kahnLoop_complete out roots st.keys hkeys hself hnodup_out
        (st.keys.card + 1) [] (roots.foldl sadd []) st.ins st.outs hinit
        (by simp) with ⟨Lf, hLf⟩
      refine ⟨dMeasure h N roots, st.keys.card + 1, Lf, ?_⟩
      unfold topological_sort
      rw [hd]
      exact hLf

/-- C1 (counterexample): the claim fails as stated.  On the acyclic two-node
graph `exOut` (`0 → 1`), calling `topological_sort` with roots `[1, 0]` —
both of which carry external feed values in the repository's own test usage,
where the gradient-seed sink is a feed key — returns `[1, 0, 1]`: discovered
node `1` appears twice rather than exactly once (and its first occurrence
precedes its producer `0`). -/
theorem topological_sort_counterexample :
    topological_sort exOut 10 10 [1, 0] = some [1, 0, 1] ∧
    Reach exOut [1, 0] 1 ∧ List.count 1 [1, 0, 1] ≠ 1 :=
  ⟨by decide, Reach.root (by simp), by decide⟩

/-- C1 (amended): when, additionally, every root node is a true source (no
node of the universe lists a root among its consumers-of — i.e. roots have no
inbound edges) and outbound lists are duplicate-free, `topological_sort`
returns a list containing every discovered (reachable) node exactly once, in
which every producer appears strictly before each of its consumers.  The
rank function `h` witnesses acyclicity, `N` bounds the node universe. -/
theorem topological_sort_amended (out : ℕ → List ℕ) (roots : List ℕ) (N : ℕ)
    (h : ℕ → ℕ)
    (h1 : ∀ r ∈ roots, r < N)
    (h2 : ∀ n, n < N → ∀ m ∈ out n, m < N)
    (h3 : ∀ n, n < N → ∀ m ∈ out n, h m < h n)
    (h4 : ∀ n, n < N → (out n).Nodup)
    (h5 : ∀ n, n < N → (out n).length ≤ N)
    (h6 : ∀ r ∈ roots, ∀ p, p < N → r ∉ out p) :
    ∃ f1 f2 L, topological_sort out f1 f2 roots = some L ∧ L.Nodup ∧
      (∀ x, x ∈ L ↔ Reach out roots x) ∧
      (∀ p c, Reach out roots p → c ∈ out p →
        L.indexOf p < L.indexOf c) := by
  rcases topological_sort_exists out roots N h h1 h2 h3 h4 h5 h6 with
    ⟨f1, f2, L, hrun⟩
  rcases topological_sort_props out roots N h h1 h2 h3 h4 h6 f1 f2 L hrun
    with ⟨hnd, hmem, hord⟩
  exact ⟨f1, f2, L, hrun, hnd, hmem, fun p c hp hc => (hord p c hp hc).2.2⟩

/-- Witness for the amended C1 on the concrete chain `0 → 1 → 2` rooted at
`0`. -/
theorem topological_sort_amended_witness :
    (∀ r ∈ [0], ∀ p, p < 3 → r ∉ chainOut p) ∧
    (∃ f1 f2 L, topological_sort chainOut f1 f2 [0] = some L ∧ L.Nodup ∧
      (∀ x, x ∈ L ↔ Reach chainOut [0] x) ∧
      (∀ p c, Reach chainOut [0] p → c ∈ chainOut p →
        L.indexOf p < L.indexOf c)) :=
  ⟨by decide, topological_sort_amended chainOut [0] 3 (fun n => 3 - n)
    (by decide) (by decide) (by decide) (by decide) (by decide) (by decide)⟩

/-- C10: the graph-discovery loop of `topological_sort` — which re-appends
every outbound consumer each time a node is popped — terminates on every
finite acyclic graph: with acyclicity witnessed by the rank function `h`
(strictly decreasing along every edge) and `N` bounding the universe and the
outbound-list lengths, fuel `dMeasure h N roots` empties the worklist. -/
theorem discovery_terminates (out : ℕ → List ℕ) (roots : List ℕ) (N : ℕ)
    (h : ℕ → ℕ)
    (h1 : ∀ r ∈ roots, r < N)
    (h2 : ∀ n, n < N → ∀ m ∈ out n, m < N)
    (h3 : ∀ n, n < N → ∀ m ∈ out n, h m < h n)
    (h5 : ∀ n, n < N → (out n).length ≤ N) :
    (discoverLoop out (dMeasure h N roots) roots DState.empty).1 = [] :=
  discoverLoop_empties out N h h2 h3 h5 (dMeasure h N roots) roots
    DState.empty h1 (le_refl _)

/-- Witness for C10 on the concrete graph `exOut` rooted at `0`. -/
theorem discovery_terminates_witness :
    (∀ n, n < 2 → ∀ m ∈ exOut n, (2 - m) < (2 - n)) ∧
    (discoverLoop exOut (dMeasure (fun n => 2 - n) 2 [0]) [0]
      DState.empty).1 = [] :=
  ⟨by decide, discovery_terminates exOut [0] 2 (fun n => 2 - n)
    (by decide) (by decide) (by decide) (by decide)⟩

/-- C9: the chained callable built by the composition utility is
left-to-right function composition: for all functions `f`, `g` and every
argument `x`, `(chainable(f) >> g)(x) = g(f(x))`. -/
theorem chainable_rshift_comp {α β γ : Type} (f : α → β) (g : β → γ)
    (x : α) : ((chainable f).rshift g).call x = g (f x) := rfl

/-- C7: Scenario A.  On the graph `g = Mul(x, y)`, `h = Mul(x, z)`,
`f = Add(g, h)` observed by the gradient seed, with feed `x = 3`, `y = 4`,
`z = -5` and upstream seed `0.5` on `f`, `evaluate` returns value `-3` and
gradients `-0.5`, `1.5`, `1.5` with respect to `x`, `y`, `z`. -/
theorem scenarioA_eval :
    value_and_grad scenA 30 30 6 [(0, 3), (1, 4), (2, -5), (6, 1/2)]
      [0, 1, 2] blankState = .ok (some (-3), [-(1/2), 3/2, 3/2]) := by
  with_unfolding_all decide

lemma except_bind_ok {ε α β : Type} (a : α) (f : α → Except ε β) :
    (Except.ok a >>= f) = f a := rfl

lemma except_bind_error {ε α β : Type} (e : ε) (f : α → Except ε β) :
    (Except.error e >>= f : Except ε β) = Except.error e := rfl

/-- A `forward()` dispatch never raises the invalid-terminal error. -/
lemma forwardStep_not_invalid (G : GraphOps) (feed : List (ℕ × ℚ))
    (st : EState) (n : ℕ) :
    forwardStep G feed st n ≠ .error .invalidTerminal := by
  intro hc
  unfold forwardStep at hc
  split at hc
  · split at hc <;> simp at hc
  · split at hc <;> simp at hc
  · split at hc
    · split at hc <;> simp at hc
    · simp at hc
  · split at hc
    · split at hc <;> simp at hc
    · simp at hc

/-- Errors escaping a fold are errors of some step. -/
lemma foldlM_error_ne {σ : Type} (f : σ → ℕ → Except EvalErr σ)
    (bad : EvalErr)
    (hstep : ∀ s a e, f s a = .error e → e ≠ bad) :
    ∀ (l : List ℕ) (s : σ) (e : EvalErr), l.foldlM f s = .error e →
      e ≠ bad := by
  intro l
  induction l with
  | nil =>
      intro s e he
      rw [List.foldlM_nil] at he
      cases he
  | cons a l ih =>
      intro s e he
      rw [List.foldlM_cons] at he
      cases hf : f s a with
      | error e2 =>
          rw [hf, except_bind_error] at he
          cases he
          exact hstep s a _ hf
      | ok s2 =>
          rw [hf, except_bind_ok] at he
          exact ih s2 e he

/-- The gradient dictionary computation never raises the invalid-terminal
error. -/
lemma backwardMap_not_invalid (G : GraphOps) (feed : List (ℕ × ℚ))
    (st : EState) (n : ℕ) :
    ∀ e, backwardMap G feed st n = .error e → e ≠ .invalidTerminal := by
  intro e h
  unfold backwardMap at h
  split at h
  · split at h
    · cases h
    · cases h
      simp
  · refine foldlM_error_ne _ _ ?_ _ _ _ h
    intro s a e2 he2
    split at he2 <;> cases he2 <;> simp
  · split at h
    · refine foldlM_error_ne _ _ ?_ _ _ _ h
      intro s a e2 he2
      split at he2 <;> cases he2 <;> simp
    · cases h
      simp
  · split at h
    · refine foldlM_error_ne _ _ ?_ _ _ _ h
      intro s a e2 he2
      split at he2 <;> cases he2 <;> simp
    · cases h
      simp

/-- A `backward()` dispatch never raises the invalid-terminal error. -/
lemma backwardStep_not_invalid (G : GraphOps) (feed : List (ℕ × ℚ))
    (st : EState) (n : ℕ) :
    backwardStep G feed st n ≠ .error .invalidTerminal := by
  intro hc
  unfold backwardStep at hc
  split at hc
  · cases hc
  · rename_i e heq
    injection hc with h2
    exact absurd h2 (backwardMap_not_invalid G feed st n e heq)

lemma forwardFold_not_invalid (G : GraphOps) (feed : List (ℕ × ℚ))
    (L : List ℕ) (st : EState) (e : EvalErr)
    (h : forwardFold G feed L st = .error e) : e ≠ .invalidTerminal := by
  refine foldlM_error_ne (forwardStep G feed) _ ?_ L st e h
  intro s a e2 he2 hc
  subst hc
  exact forwardStep_not_invalid G feed s a he2

lemma backwardFold_not_invalid (G : GraphOps) (feed : List (ℕ × ℚ))
    (L : List ℕ) (st : EState) (e : EvalErr)
    (h : backwardFold G feed L st = .error e) : e ≠ .invalidTerminal := by
  refine foldlM_error_ne (backwardStep G feed) _ ?_ L st e h
  intro s a e2 he2 hc
  subst hc
  exact backwardStep_not_invalid G feed s a he2

lemma readGrads_not_invalid (st : EState) :
    ∀ (ws : List ℕ) (e : EvalErr), readGrads st ws = .error e →
      e ≠ .invalidTerminal := by
  intro ws
  induction ws with
  | nil => intro e h; cases h
  | cons w ws ih =>
      intro e h
      unfold readGrads at h
      split at h
      · split at h
        · cases h
        · rename_i e2 heq
          injection h with h2
          subst h2
          exact ih _ heq
      · cases h
        simp

/-- C4: `evaluate` fails with the invalid-terminal (InvalidGraph) error
exactly when the chosen terminal node still has outbound consumers; with an
empty outbound list the call always gets past this check (whatever else
happens, it never raises this error). -/
theorem evaluate_invalid_terminal_iff (G : GraphOps) (fuel1 fuel2 : ℕ)
    (node : ℕ) (feed : List (ℕ × ℚ)) (wrt : List ℕ) (st : EState) :
    value_and_grad G fuel1 fuel2 node feed wrt st =
      .error .invalidTerminal ↔ G.outbound node ≠ [] := by
  constructor
  · intro h hout
    unfold value_and_grad at h
    rw [if_pos hout] at h
    split at h
    · simp at h
    · split at h
      · rename_i e heq
        simp at h
        exact forwardFold_not_invalid _ _ _ _ _ heq h
      · split at h
        · rename_i e heq
          simp at h
          exact backwardFold_not_invalid _ _ _ _ _ heq h
        · split at h
          · rename_i e heq
            simp at h
            exact readGrads_not_invalid _ _ _ heq h
          · simp at h
  · intro hout
    unfold value_and_grad
    rw [if_neg hout]

/-- A `backward()` dispatch never touches any node's `value`. -/
lemma backwardStep_value (G : GraphOps) (feed : List (ℕ × ℚ)) (st : EState)
    (n : ℕ) (st2 : EState) (h : backwardStep G feed st n = .ok st2) :
    st2.value = st.value := by
  unfold backwardStep at h
  split at h
  · cases h
    rfl
  · cases h

/-- The whole backward pass leaves every `value` untouched. -/
lemma backwardFold_value (G : GraphOps) (feed : List (ℕ × ℚ)) :
    ∀ (L : List ℕ) (st st2 : EState),
    backwardFold G feed L st = .ok st2 → st2.value = st.value := by
  intro L
  induction L with
  | nil =>
      intro st st2 h
      cases h
      rfl
  | cons n L ih =>
      intro st st2 h
      unfold backwardFold at h
      rw [List.foldlM_cons] at h
      cases hs : backwardStep G feed st n with
      | error e => rw [hs, except_bind_error] at h; cases h
      | ok s1 =>
          rw [hs, except_bind_ok] at h
          rw [ih s1 st2 h]
          exact backwardStep_value G feed st n s1 hs

/-- `readGrads` returns one entry per `wrt` node: the `some`-value of that
node's self-gradient. -/
lemma readGrads_spec (st : EState) :
    ∀ (ws : List ℕ) (gs : List ℚ), readGrads st ws = .ok gs →
    gs.length = ws.length ∧
    ∀ i (hi : i < ws.length) (hg : i < gs.length),
      st.grads (ws.get ⟨i, hi⟩) (ws.get ⟨i, hi⟩) = some (gs.get ⟨i, hg⟩) := by
  intro ws
  induction ws with
  | nil =>
      intro gs h
      cases h
      exact ⟨rfl, fun i hi => absurd hi (by simp)⟩
  | cons w ws ih =>
      intro gs h
      unfold readGrads at h
      split at h
      · rename_i q hq
        split at h
        · rename_i qs hqs
          cases h
          rcases ih qs hqs with ⟨hlen, hidx⟩
          refine ⟨by simp [hlen], ?_⟩
          intro i hi hg
          cases i with
          | zero => simpa using hq
          | succ j =>
              simpa using hidx j (by simpa using hi) (by simpa using hg)
        · cases h
      · cases h

/-- C3: a successful `evaluate(terminal_node, feed_values, wrt)` returns
exactly the pair (terminal node's `value` as left by the forward pass — the
backward pass never modifies values — and the list whose `i`-th element is
`gradients[wrt[i]]`, the self-gradient of `wrt[i]`, in `wrt` order); with
`wrt` empty (the model of an omitted `wrt`) the gradient list is empty. -/
theorem evaluate_result_spec (G : GraphOps) (f1 f2 : ℕ) (node : ℕ)
    (feed : List (ℕ × ℚ)) (wrt : List ℕ) (st : EState) (v : Option ℚ)
    (gs : List ℚ)
    (h : value_and_grad G f1 f2 node feed wrt st = .ok (v, gs)) :
    ∃ nodes st1 st2,
      topological_sort G.outbound f1 f2 (feed.map Prod.fst) = some nodes ∧
      forwardFold G feed nodes st = .ok st1 ∧
      backwardFold G feed nodes.reverse st1 = .ok st2 ∧
      v = st1.value node ∧
      gs.length = wrt.length ∧
      (∀ i (hi : i < wrt.length) (hg : i < gs.length),
        st2.grads (wrt.get ⟨i, hi⟩) (wrt.get ⟨i, hi⟩) =
          some (gs.get ⟨i, hg⟩)) ∧
      (wrt = [] → gs = []) := by
  unfold value_and_grad at h
  by_cases hout : G.outbound node = []
  · rw [if_pos hout] at h
    split at h
    · cases h
    · rename_i nodes hnodes
      split at h
      · cases h
      · rename_i st1 hst1
        split at h
        · cases h
        · rename_i st2 hst2
          split at h
          · cases h
          · rename_i gs2 hgs
            cases h
            rcases readGrads_spec st2 wrt _ hgs with ⟨hlen, hidx⟩
            refine ⟨nodes, st1, st2, hnodes, hst1, hst2, ?_, hlen, hidx, ?_⟩
            · rw [backwardFold_value G feed nodes.reverse st1 st2 hst2]
            · intro hw
              subst hw
              exact List.length_eq_zero.mp hlen
  · rw [if_neg hout] at h
    cases h

/-- Witness for C3 at a concrete successful run. -/
theorem evaluate_result_spec_witness :
    ∃ nodes st1 st2,
      topological_sort g3.outbound 10 10 ([((0:ℕ), (5:ℚ)), (1, 1)].map
        Prod.fst) = some nodes ∧
      forwardFold g3 [(0, 5), (1, 1)] nodes blankState = .ok st1 ∧
      backwardFold g3 [(0, 5), (1, 1)] nodes.reverse st1 = .ok st2 ∧
      some 5 = st1.value 1 ∧
      ([(1:ℚ)]).length = ([(0:ℕ)]).length ∧
      (∀ i (hi : i < ([(0:ℕ)]).length) (hg : i < ([(1:ℚ)]).length),
        st2.grads (([(0:ℕ)]).get ⟨i, hi⟩) (([(0:ℕ)]).get ⟨i, hi⟩) =
          some (([(1:ℚ)]).get ⟨i, hg⟩)) ∧
      (([(0:ℕ)]) = [] → ([(1:ℚ)]) = []) :=
  evaluate_result_spec g3 10 10 1 [(0, 5), (1, 1)] [0] blankState (some 5)
    [1] (by with_unfolding_all decide)

lemma setGrads_value (st : EState) (n : ℕ) (g : ℕ → Option ℚ) :
    (setGrads st n g).value = st.value := rfl

lemma setGrads_setGrads (st : EState) (n : ℕ) (g g2 : ℕ → Option ℚ) :
    setGrads (setGrads st n g) n g2 = setGrads st n g2 := by
  unfold setGrads
  congr 1
  funext k
  by_cases h : k = n <;> simp [h]

lemma setGrads_grads_ne (st : EState) (n : ℕ) (g : ℕ → Option ℚ) (c : ℕ)
    (h : c ≠ n) : (setGrads st n g).grads c = st.grads c := by
  unfold setGrads
  simp [h]

lemma foldlM_congr {σ α : Type} (f g : σ → α → Except EvalErr σ) :
    ∀ (l : List α), (∀ s a, a ∈ l → f s a = g s a) →
    ∀ s, l.foldlM f s = l.foldlM g s := by
  intro l
  induction l with
  | nil => intro _ s; rfl
  | cons a l ih =>
      intro h s
      rw [List.foldlM_cons, List.foldlM_cons, h s a (List.mem_cons_self a l)]
      cases hg : g s a with
      | error e => rw [except_bind_error, except_bind_error]
      | ok s2 =>
          rw [except_bind_ok, except_bind_ok]
          exact ih (fun s3 b hb => h s3 b (List.mem_cons_of_mem a hb)) s2

/-- `backward()`'s gradient dictionary depends only on the consumers'
gradient entries for this node and the operand values. -/
lemma backwardMap_agree (G : GraphOps) (feed : List (ℕ × ℚ))
    (st1 st2 : EState) (n : ℕ)
    (hg : ∀ c ∈ G.outbound n, st1.grads c n = st2.grads c n)
    (hv : ∀ p ∈ G.inbound n, st1.value p = st2.value p) :
    backwardMap G feed st1 n = backwardMap G feed st2 n := by
  unfold backwardMap
  cases G.op n
  · exact foldlM_congr _ _ (G.outbound n)
      (fun s c hc => by simp only [hg c hc]) _
  · rfl
  · cases hin : G.inbound n with
    | nil => rfl
    | cons a l =>
        cases l with
        | nil => rfl
        | cons b l2 =>
            cases l2 with
            | nil =>
                dsimp only
                exact foldlM_congr _ _ (G.outbound n)
                  (fun s c hc => by simp only [hg c hc]) _
            | cons c l3 => rfl
  · cases hin : G.inbound n with
    | nil => rfl
    | cons a l =>
        cases l with
        | nil => rfl
        | cons b l2 =>
            cases l2 with
            | nil =>
                have hva : st1.value a = st2.value a :=
                  hv a (by rw [hin]; exact List.mem_cons_self a [b])
                have hvb : st1.value b = st2.value b :=
                  hv b (by rw [hin]; simp)
                dsimp only
                exact foldlM_congr _ _ (G.outbound n)
                  (fun s c hc => by simp only [hg c hc, hva, hvb]) _
            | cons c l3 => rfl

/-- C5 (counterexample): the claim fails as stated on the `MockGrad`
variant: its `backward()` performs no accumulation at all — the dictionary
it assigns (its re-initialization) maps its operand directly to the seeded
upstream gradient, here `0.5`, not to a zero-valued entry. -/
theorem mock_backward_init_not_zero :
    gradInit Op.mock 1 [0] (1/2) 0 = some (1/2) ∧
    gradInit Op.mock 1 [0] (1/2) 0 ≠ some 0 := by
  constructor
  · rfl
  · intro hc
    rw [show gradInit Op.mock 1 [0] (1/2) 0 = some (1/2) from rfl] at hc
    have : (1/2 : ℚ) = 0 := Option.some.inj hc
    norm_num at this

/-- C5 (amended): every variant's `backward()` begins by replacing the
node's gradients dictionary wholesale — so gradients of a previous
evaluation never influence the result (first conjunct: mutating the node's
own stored gradients beforehand leaves `backward()`'s outcome unchanged, as
long as the node is not its own consumer) — and the pre-accumulation
dictionary is zero-valued on each operand for the accumulating variants
`Add` and `Mul`, zero on `self` for `Input`, while `MockGrad` assigns the
externally seeded gradient directly. -/
theorem backward_reinit_amended :
    (∀ (G : GraphOps) (feed : List (ℕ × ℚ)) (st : EState) (n : ℕ)
      (g0 : ℕ → Option ℚ), n ∉ G.outbound n →
      backwardStep G feed (setGrads st n g0) n = backwardStep G feed st n) ∧
    (∀ selfId inb seed k, k ∈ inb →
      gradInit Op.add selfId inb seed k = some 0) ∧
    (∀ selfId inb seed k, k ∈ inb →
      gradInit Op.mul selfId inb seed k = some 0) ∧
    (∀ selfId inb seed, gradInit Op.input selfId inb seed selfId = some 0) ∧
    (∀ selfId inb seed k, k ∈ inb →
      gradInit Op.mock selfId inb seed k = some seed) := by
  refine ⟨?_, ?_, ?_, ?_, ?_⟩
  · intro G feed st n g0 hn
    have hmap : backwardMap G feed (setGrads st n g0) n =
        backwardMap G feed st n := by
      refine backwardMap_agree G feed (setGrads st n g0) st n ?_ ?_
      · intro c hc
        have hcn : c ≠ n := fun hcn => hn (hcn ▸ hc)
        rw [setGrads_grads_ne st n g0 c hcn]
      · intro p _
        rfl
    unfold backwardStep
    rw [hmap]
    cases hm : backwardMap G feed st n with
    | error e => rfl
    | ok g => exact congrArg Except.ok (setGrads_setGrads st n g0 g)
  · intro selfId inb seed k hk
    simp [gradInit, hk]
  · intro selfId inb seed k hk
    simp [gradInit, hk]
  · intro selfId inb seed
    simp [gradInit]
  · intro selfId inb seed k hk
    simp [gradInit, hk]

/-- Witness for the amended C5: seeding stale gradients on the mock node of
`g3` does not change its `backward()` outcome. -/
theorem backward_reinit_amended_witness :
    (1 ∉ g3.outbound 1) ∧
    backwardStep g3 [(0, 5), (1, 1)]
      (setGrads blankState 1 (fun _ => some 99)) 1 =
      backwardStep g3 [(0, 5), (1, 1)] blankState 1 :=
  ⟨by decide, backward_reinit_amended.1 g3 [(0, 5), (1, 1)] blankState 1
    (fun _ => some 99) (by decide)⟩

/-! ### `Node.__init__` bookkeeping invariants (C8) -/

lemma modifyAt_length (a : List NodeRec) :
    ∀ (i : ℕ) (f : NodeRec → NodeRec), (modifyAt a i f).length = a.length := by
  induction a with
  | nil => intro i f; rfl
  | cons r rs ih =>
      intro i f
      cases i with
      | zero => rfl
      | succ j => simpa [modifyAt] using ih j f

lemma modifyAt_get_eq (a : List NodeRec) :
    ∀ (i : ℕ) (f : NodeRec → NodeRec), i < a.length →
    arenaGet (modifyAt a i f) i = f (arenaGet a i) := by
  induction a with
  | nil => intro i f hi; cases hi
  | cons r rs ih =>
      intro i f hi
      cases i with
      | zero => rfl
      | succ j => simpa [modifyAt, arenaGet] using ih j f (by simpa using hi)

lemma modifyAt_get_ne (a : List NodeRec) :
    ∀ (i j : ℕ) (f : NodeRec → NodeRec), j ≠ i →
    arenaGet (modifyAt a i f) j = arenaGet a j := by
  induction a with
  | nil => intro i j f _; rfl
  | cons r rs ih =>
      intro i j f hij
      cases i with
      | zero =>
          cases j with
          | zero => exact absurd rfl hij
          | succ k => rfl
      | succ i2 =>
          cases j with
          | zero => rfl
          | succ k =>
              simpa [modifyAt, arenaGet] using ih i2 k f (by omega)

/-- The appends performed for one construction: node `j`'s outbound list
gains one copy of the new id per occurrence of `j` among the operands. -/
lemma appendFold_spec (newId : ℕ) :
    ∀ (s : List ℕ) (acc : List NodeRec), (∀ o ∈ s, o < acc.length) →
    ((s.foldl (fun acc2 o => modifyAt acc2 o
        (fun r => ⟨r.inbound, r.outbound ++ [newId]⟩)) acc).length =
      acc.length) ∧
    (∀ j, j < acc.length →
      (arenaGet (s.foldl (fun acc2 o => modifyAt acc2 o
          (fun r => ⟨r.inbound, r.outbound ++ [newId]⟩)) acc) j).inbound =
        (arenaGet acc j).inbound ∧
      (arenaGet (s.foldl (fun acc2 o => modifyAt acc2 o
          (fun r => ⟨r.inbound, r.outbound ++ [newId]⟩)) acc) j).outbound =
        (arenaGet acc j).outbound ++ List.replicate (s.count j) newId) := by
  intro s
  induction s with
  | nil =>
      intro acc _
      exact ⟨rfl, fun j _ => ⟨rfl, by simp⟩⟩
  | cons o s ih =>
      intro acc hvalid
      have hlen2 : (modifyAt acc o
          (fun r => ⟨r.inbound, r.outbound ++ [newId]⟩)).length =
          acc.length := modifyAt_length acc o _
      have hvalid2 : ∀ x ∈ s, x < (modifyAt acc o
          (fun r => ⟨r.inbound, r.outbound ++ [newId]⟩)).length := by
        intro x hx
        rw [hlen2]
        exact hvalid x (List.mem_cons_of_mem o hx)
      rcases ih _ hvalid2 with ⟨ihlen, ihget⟩
      rw [List.foldl_cons] at *
      refine ⟨by rw [ihlen, hlen2], ?_⟩
      intro j hj
      rcases ihget j (by rw [hlen2]; exact hj) with ⟨hinb, houtb⟩
      by_cases hjo : j = o
      · subst hjo
        rw [hinb, houtb, modifyAt_get_eq acc j _ hj]
        refine ⟨rfl, ?_⟩
        show (arenaGet acc j).outbound ++ [newId] ++ _ = _
        rw [List.count_cons_self, List.append_assoc]
        simp [List.replicate_succ]
      · rw [hinb, houtb, modifyAt_get_ne acc o j _ hjo]
        exact ⟨rfl, by rw [List.count_cons_of_ne hjo]⟩

lemma arenaGet_append_lt (a : List NodeRec) (x : NodeRec) (j : ℕ)
    (hj : j < a.length) : arenaGet (a ++ [x]) j = arenaGet a j :=
  List.getD_append a [x] _ j hj

lemma getD_concat {α : Type} (l : List α) (x d : α) :
    (l ++ [x]).getD l.length d = x := by
  induction l with
  | nil => rfl
  | cons r rs ih => simp [ih]

lemma arenaGet_append_self (a : List NodeRec) (x : NodeRec) :
    arenaGet (a ++ [x]) a.length = x :=
  getD_concat a x _

lemma addNode_good (specs : List (List ℕ)) (a : List NodeRec)
    (s : List ℕ) (hgood : ArenaGood specs a) (hs : ∀ o ∈ s, o < a.length) :
    ArenaGood (specs ++ [s]) (addNode a s) := by
  have hlen2 : (a ++ [(⟨s, []⟩ : NodeRec)]).length = a.length + 1 := by simp
  have hsval : ∀ o ∈ s, o < (a ++ [(⟨s, []⟩ : NodeRec)]).length := by
    intro o ho
    rw [hlen2]
    exact Nat.lt_succ_of_lt (hs o ho)
  rcases appendFold_spec a.length s (a ++ [⟨s, []⟩]) hsval with ⟨hflen, hfget⟩
  have hres_len : (addNode a s).length = a.length + 1 := by
    have hrw : addNode a s = s.foldl (fun acc2 o => modifyAt acc2 o
        (fun r => ⟨r.inbound, r.outbound ++ [a.length]⟩)) (a ++ [⟨s, []⟩]) :=
      rfl
    rw [hrw, hflen, hlen2]
  have hget_old : ∀ j, j < a.length →
      (arenaGet (addNode a s) j).inbound = (arenaGet a j).inbound ∧
      (arenaGet (addNode a s) j).outbound =
        (arenaGet a j).outbound ++ List.replicate (s.count j) a.length := by
    intro j hj
    rcases hfget j (by rw [hlen2]; omega) with ⟨h1, h2⟩
    rw [arenaGet_append_lt a _ j hj] at h1 h2
    exact ⟨h1, h2⟩
  have hget_new :
      (arenaGet (addNode a s) a.length).inbound = s ∧
      (arenaGet (addNode a s) a.length).outbound = [] := by
    rcases hfget a.length (by rw [hlen2]; omega) with ⟨h1, h2⟩
    rw [arenaGet_append_self a _] at h1 h2
    have hcount : s.count a.length = 0 :=
      List.count_eq_zero.mpr (fun hc => absurd (hs _ hc) (lt_irrefl _))
    rw [hcount] at h2
    simpa using ⟨h1, h2⟩
  refine ⟨?_, ?_, ?_, ?_, ?_⟩
  · rw [hres_len, hgood.len]
    simp
  · intro j hj
    rw [hres_len] at hj
    rcases Nat.lt_succ_iff_lt_or_eq.mp hj with hj2 | hj2
    · rw [(hget_old j hj2).1, hgood.inb j hj2,
        List.getD_append _ _ _ _ (by rw [← hgood.len]; exact hj2)]
    · subst hj2
      rw [hget_new.1, hgood.len, getD_concat]
  · intro j hj
    rw [hres_len] at hj
    rcases Nat.lt_succ_iff_lt_or_eq.mp hj with hj2 | hj2
    · rw [(hget_old j hj2).1]
      exact hgood.inb_lt j hj2
    · subst hj2
      rw [hget_new.1]
      exact hs
  · intro i hi c hc
    rw [hres_len] at hi ⊢
    rcases Nat.lt_succ_iff_lt_or_eq.mp hi with hi2 | hi2
    · rw [(hget_old i hi2).2] at hc
      rcases List.mem_append.mp hc with hc2 | hc2
      · exact Nat.lt_succ_of_lt (hgood.outb_lt i hi2 c hc2)
      · rw [List.eq_of_mem_replicate hc2]
        omega
    · subst hi2
      rw [hget_new.2] at hc
      cases hc
  · intro i j hi hj
    rw [hres_len] at hi hj
    rcases Nat.lt_succ_iff_lt_or_eq.mp hi with hi2 | hi2 <;>
      rcases Nat.lt_succ_iff_lt_or_eq.mp hj with hj2 | hj2
    · rw [(hget_old i hi2).2, (hget_old j hj2).1, List.count_append,
        hgood.counts i j hi2 hj2, List.count_replicate]
      have : ¬(a.length = j) := by omega
      simp [this]
    · subst hj2
      rw [(hget_old i hi2).2, hget_new.1, List.count_append,
        List.count_replicate]
      have h0 : List.count a.length (arenaGet a i).outbound = 0 :=
        List.count_eq_zero.mpr
          (fun hc => absurd (hgood.outb_lt i hi2 _ hc) (lt_irrefl _))
      simp [h0]
    · subst hi2
      rw [hget_new.2, (hget_old j hj2).1]
      have h0 : List.count a.length (arenaGet a j).inbound = 0 :=
        List.count_eq_zero.mpr
          (fun hc => absurd (hgood.inb_lt j hj2 _ hc) (by omega))
      simp [h0]
    · subst hi2
      subst hj2
      rw [hget_new.2, hget_new.1]
      have h0 : List.count a.length s = 0 :=
        List.count_eq_zero.mpr (fun hc => absurd (hs _ hc) (lt_irrefl _))
      simp [h0]

lemma buildArena_good (specs : List (List ℕ))
    (hvalid : ∀ k, k < specs.length → ∀ o ∈ specs.getD k [], o < k) :
    ArenaGood specs (buildArena specs) := by
  induction specs using List.reverseRecOn with
  | nil =>
      exact ⟨rfl, fun j hj => absurd hj (Nat.not_lt_zero j),
        fun j hj => absurd hj (Nat.not_lt_zero j),
        fun i hi => absurd hi (Nat.not_lt_zero i),
        fun i j hi => absurd hi (Nat.not_lt_zero i)⟩
  | append_singleton l s ih =>
      have hstep : buildArena (l ++ [s]) = addNode (buildArena l) s := by
        unfold buildArena
        rw [List.foldl_append]
        rfl
      rw [hstep]
      have hgl : ArenaGood l (buildArena l) := by
        refine ih ?_
        intro k hk o ho
        have := hvalid k (by simp; omega)
        rw [List.getD_append _ _ _ _ hk] at this
        exact this o ho
      refine addNode_good l (buildArena l) s hgl ?_
      intro o ho
      rw [hgl.len]
      have := hvalid l.length (by simp)
      rw [getD_concat] at this
      exact this o ho

/-- C8 (counterexample): constructing a node with the same operand twice
(`Add(a, a)` style) appends the new node to that operand's outbound list
once per occurrence — here twice, not "exactly once". -/
theorem addNode_duplicate_operand :
    (arenaGet (buildArena [[], [0, 0]]) 0).outbound = [1, 1] ∧
    List.count 1 (arenaGet (buildArena [[], [0, 0]]) 0).outbound ≠ 1 := by
  decide

/-- C8 (amended): for every construction sequence whose operands are
previously constructed nodes, `Node.__init__` appends the new node to each
operand's outbound list once per occurrence of that operand, so every edge
appears in the two lists with consistent multiplicity (the count of `j` in
`i`'s outbound equals the count of `i` in `j`'s inbound), and each node's
inbound list equals the operand list given at its construction — inbound
lists are never mutated afterwards. -/
theorem node_init_edge_bookkeeping (specs : List (List ℕ))
    (hvalid : ∀ k, k < specs.length → ∀ o ∈ specs.getD k [], o < k) :
    (buildArena specs).length = specs.length ∧
    (∀ j, j < (buildArena specs).length →
      (arenaGet (buildArena specs) j).inbound = specs.getD j []) ∧
    (∀ i j, i < (buildArena specs).length →
      j < (buildArena specs).length →
      List.count j (arenaGet (buildArena specs) i).outbound =
        List.count i (arenaGet (buildArena specs) j).inbound) := by
  have h := buildArena_good specs hvalid
  exact ⟨h.len, h.inb, h.counts⟩

/-- Witness for the amended C8 on a four-node construction. -/
theorem node_init_edge_bookkeeping_witness :
    (∀ k, k < 4 → ∀ o ∈ ([[], [], [0, 1], [2, 0]] :
      List (List ℕ)).getD k [], o < k) ∧
    ((buildArena [[], [], [0, 1], [2, 0]]).length = 4 ∧
    (∀ j, j < (buildArena [[], [], [0, 1], [2, 0]]).length →
      (arenaGet (buildArena [[], [], [0, 1], [2, 0]]) j).inbound =
        ([[], [], [0, 1], [2, 0]] : List (List ℕ)).getD j []) ∧
    (∀ i j, i < (buildArena [[], [], [0, 1], [2, 0]]).length →
      j < (buildArena [[], [], [0, 1], [2, 0]]).length →
      List.count j (arenaGet (buildArena [[], [], [0, 1], [2, 0]]) i).outbound =
        List.count i (arenaGet (buildArena [[], [], [0, 1], [2, 0]]) j).inbound)) :=
  ⟨by decide, node_init_edge_bookkeeping [[], [], [0, 1], [2, 0]] (by decide)⟩

/-- C6: the code is wrong for multi-row batches.  On logits
`[[0, 1], [1, 0]]` with labels `[0, 1]` (batch of two rows), the claimed
per-row average of −log(probability at each row's own label) differs from
what the source computes: `probs[:, y]` fancy-indexes every row with every
label, so `np.average` runs over all row×label pairs.  With the modelled
backend (`exp0` for `exp`, the identity for `log`) the code yields `-1/2`
while the specified value is `-1/3`; the cached `softmax` probabilities
themselves agree. -/
theorem ce_forward_multirow_bug :
    ceForwardValue exp0 id [[0, 1], [1, 0]] [0, 1] = -(1/2) ∧
    ceForwardValueSpec exp0 id [[0, 1], [1, 0]] [0, 1] = -(1/3) ∧
    ceForwardValue exp0 id [[0, 1], [1, 0]] [0, 1] ≠
      ceForwardValueSpec exp0 id [[0, 1], [1, 0]] [0, 1] ∧
    ceForwardCache exp0 [[0, 1], [1, 0]] =
      [[1/3, 2/3], [2/3, 1/3]] := by
  with_unfolding_all decide

/-- On single-row batches — the only shape the repository's test exercises —
the two computations agree, which is why the bug goes unnoticed. -/
theorem ce_forward_single_row (e l : ℚ → ℚ) (row : List ℚ) (lab : ℕ) :
    ceForwardValue e l [row] [lab] = ceForwardValueSpec e l [row] [lab] := by
  unfold ceForwardValue ceForwardValueSpec negLogAvg colsAt softmax
  simp

/-! ## Determinism of `value_and_grad` (C2)

Two runs of `evaluate` on the same graph, feed and `wrt`, starting from any
two mutable states (in particular, the state a previous evaluation left
behind), return the same pair.  The proof walks the forward pass showing the
values of processed nodes agree between the runs (each node's operands are
processed strictly earlier), then walks the backward pass showing the
gradient dictionaries agree (each node's consumers are processed strictly
earlier in the reversed order). -/

lemma indexOf_concat_self (P : List ℕ) (n : ℕ) (rest : List ℕ)
    (hn : n ∉ P) : (P ++ n :: rest).indexOf n = P.length := by
  rw [List.indexOf_append_of_not_mem hn, List.indexOf_cons_self]
  omega

lemma mem_prefix_of_indexOf_lt (P rest : List ℕ) (x : ℕ)
    (h : (P ++ rest).indexOf x < P.length) : x ∈ P := by
  by_contra hxP
  rw [List.indexOf_append_of_not_mem hxP] at h
  omega

lemma indexOf_reverse_eq (M : List ℕ) :
    M.Nodup → ∀ x ∈ M, M.reverse.indexOf x = M.length - 1 - M.indexOf x := by
  induction M with
  | nil => intro _ x hx; cases hx
  | cons a M ih =>
      intro h x hx
      rcases List.mem_cons.mp hx with rfl | hx2
      · have haM : x ∉ M := (List.nodup_cons.mp h).1
        have haR : x ∉ M.reverse := by simpa using haM
        rw [List.reverse_cons, List.indexOf_append_of_not_mem haR,
          List.indexOf_cons_self]
        simp
      · have hax : a ≠ x := by
          rintro rfl
          exact (List.nodup_cons.mp h).1 hx2
        have hxR : x ∈ M.reverse := by simpa using hx2
        rw [List.reverse_cons, List.indexOf_append_of_mem hxR,
          ih (List.nodup_cons.mp h).2 x hx2, List.indexOf_cons_ne _ hax]
        have hlt := List.indexOf_lt_length.mpr hx2
        simp only [List.length_cons, List.length_reverse]
        omega

lemma setValue_value_eq (st : EState) (n : ℕ) (v : Option ℚ) :
    (setValue st n v).value n = v := by
  simp [setValue]

lemma setValue_value_ne (st : EState) (n : ℕ) (v : Option ℚ) (k : ℕ)
    (h : k ≠ n) : (setValue st n v).value k = st.value k := by
  simp [setValue, h]

lemma setGrads_grads_eq (st : EState) (n : ℕ) (g : ℕ → Option ℚ) :
    (setGrads st n g).grads n = g := by
  simp [setGrads]

/-- What a successful `forward()` dispatch writes. -/
lemma forwardStep_ok_value (G : GraphOps) (feed : List (ℕ × ℚ))
    (st : EState) (n : ℕ) (s : EState)
    (h : forwardStep G feed st n = .ok s) :
    (∀ k, k ≠ n → s.value k = st.value k) ∧
    (match G.op n with
     | Op.input => s.value n = feedLookup feed n
     | Op.mock => ∃ i r2, G.inbound n = i :: r2 ∧ s.value n = st.value i
     | Op.add => ∃ a b x y, G.inbound n = [a, b] ∧ st.value a = some x ∧
         st.value b = some y ∧ s.value n = some (x + y)
     | Op.mul => ∃ a b x y, G.inbound n = [a, b] ∧ st.value a = some x ∧
         st.value b = some y ∧ s.value n = some (x * y)) := by
  unfold forwardStep at h
  split at h
  · rename_i hop
    split at h
    · rename_i v hv
      cases h
      exact ⟨fun k hk => setValue_value_ne st n _ k hk,
        by rw [setValue_value_eq, hv]⟩
    · cases h
  · rename_i hop
    split at h
    · rename_i i r2 hin
      cases h
      exact ⟨fun k hk => setValue_value_ne st n _ k hk,
        ⟨i, r2, hin, setValue_value_eq st n _⟩⟩
    · cases h
  · rename_i hop
    split at h
    · rename_i a b hin
      split at h
      · rename_i x y hx hy
        cases h
        exact ⟨fun k hk => setValue_value_ne st n _ k hk,
          ⟨a, b, x, y, hin, hx, hy, setValue_value_eq st n _⟩⟩
      · cases h
    · cases h
  · rename_i hop
    split at h
    · rename_i a b hin
      split at h
      · rename_i x y hx hy
        cases h
        exact ⟨fun k hk => setValue_value_ne st n _ k hk,
          ⟨a, b, x, y, hin, hx, hy, setValue_value_eq st n _⟩⟩
      · cases h
    · cases h

/-- Forward-pass two-run agreement: if both runs of the forward pass over
the same topological order succeed, the resulting values agree on every
node of the order, whatever the two initial states were. -/
lemma forwardFold_agree (G : GraphOps) (feed : List (ℕ × ℚ)) (L : List ℕ)
    (hnodup : L.Nodup)
    (horder : ∀ n ∈ L, ∀ p ∈ G.inbound n, L.indexOf p < L.indexOf n) :
    ∀ (rest P : List ℕ), L = P ++ rest →
    ∀ (st1 st2 f1 f2 : EState),
    (∀ n ∈ P, st1.value n = st2.value n) →
    forwardFold G feed rest st1 = .ok f1 →
    forwardFold G feed rest st2 = .ok f2 →
    ∀ n ∈ L, f1.value n = f2.value n := by
  intro rest
  induction rest with
  | nil =>
      intro P hLP st1 st2 f1 f2 hP h1 h2
      cases h1
      cases h2
      intro n hn
      exact hP n (by rwa [hLP, List.append_nil] at hn)
  | cons n rest ih =>
      intro P hLP st1 st2 f1 f2 hP h1 h2
      unfold forwardFold at h1 h2
      rw [List.foldlM_cons] at h1 h2
      cases hs1 : forwardStep G feed st1 n with
      | error e => rw [hs1, except_bind_error] at h1; cases h1
      | ok s1 =>
      rw [hs1, except_bind_ok] at h1
      cases hs2 : forwardStep G feed st2 n with
      | error e => rw [hs2, except_bind_error] at h2; cases h2
      | ok s2 =>
      rw [hs2, except_bind_ok] at h2
      have hnL : n ∈ L := by
        rw [hLP]
        exact List.mem_append_right P (List.mem_cons_self n rest)
      have hnP : n ∉ P := by
        intro hc
        have hnd := hnodup
        rw [hLP] at hnd
        rcases List.nodup_append.mp hnd with ⟨_, _, hdisj⟩
        exact hdisj hc (List.mem_cons_self n rest)
      have hidxn : L.indexOf n = P.length := by
        rw [hLP]
        exact indexOf_concat_self P n rest hnP
      have hprod : ∀ p ∈ G.inbound n, p ∈ P := by
        intro p hp
        have hlt := horder n hnL p hp
        rw [hidxn] at hlt
        refine mem_prefix_of_indexOf_lt P (n :: rest) p ?_
        rwa [hLP] at hlt
      rcases forwardStep_ok_value G feed st1 n s1 hs1 with ⟨hkeep1, hval1⟩
      rcases forwardStep_ok_value G feed st2 n s2 hs2 with ⟨hkeep2, hval2⟩
      have hsn : s1.value n = s2.value n := by
        cases hop : G.op n
        · rw [hop] at hval1 hval2
          rw [hval1, hval2]
        · rw [hop] at hval1 hval2
          rcases hval1 with ⟨i1, r1, hin1, hv1⟩
          rcases hval2 with ⟨i2, r2, hin2, hv2⟩
          rw [hin1] at hin2
          cases hin2
          rw [hv1, hv2]
          exact hP i1 (hprod i1 (by rw [hin1]; exact List.mem_cons_self _ _))
        · rw [hop] at hval1 hval2
          rcases hval1 with ⟨a1, b1, x1, y1, hin1, hx1, hy1, hv1⟩
          rcases hval2 with ⟨a2, b2, x2, y2, hin2, hx2, hy2, hv2⟩
          rw [hin1] at hin2
          cases hin2
          have hxa : some x1 = some x2 := by
            rw [← hx1, ← hx2]
            exact hP a1 (hprod a1 (by rw [hin1]; simp))
          have hyb : some y1 = some y2 := by
            rw [← hy1, ← hy2]
            exact hP b1 (hprod b1 (by rw [hin1]; simp))
          cases hxa
          cases hyb
          rw [hv1, hv2]
        · rw [hop] at hval1 hval2
          rcases hval1 with ⟨a1, b1, x1, y1, hin1, hx1, hy1, hv1⟩
          rcases hval2 with ⟨a2, b2, x2, y2, hin2, hx2, hy2, hv2⟩
          rw [hin1] at hin2
          cases hin2
          have hxa : some x1 = some x2 := by
            rw [← hx1, ← hx2]
            exact hP a1 (hprod a1 (by rw [hin1]; simp))
          have hyb : some y1 = some y2 := by
            rw [← hy1, ← hy2]
            exact hP b1 (hprod b1 (by rw [hin1]; simp))
          cases hxa
          cases hyb
          rw [hv1, hv2]
      refine ih (P ++ [n]) (by rw [hLP, List.append_assoc]; rfl) s1 s2 f1 f2
        ?_ h1 h2
      intro k hk
      rcases List.mem_append.mp hk with hkP | hkn
      · by_cases hkn2 : k = n
        · subst hkn2; exact hsn
        · rw [hkeep1 k hkn2, hkeep2 k hkn2]
          exact hP k hkP
      · rcases List.mem_singleton.mp hkn with rfl
        exact hsn

lemma backwardStep_ok_shape (G : GraphOps) (feed : List (ℕ × ℚ))
    (st : EState) (n : ℕ) (s : EState)
    (h : backwardStep G feed st n = .ok s) :
    ∃ g, backwardMap G feed st n = .ok g ∧ s = setGrads st n g := by
  unfold backwardStep at h
  split at h
  · rename_i g hg
    cases h
    exact ⟨g, hg, rfl⟩
  · cases h

/-- Backward-pass two-run agreement over the reversed order `R`: if both
runs succeed, the gradient dictionaries agree on every node of `R`. -/
lemma backwardFold_agree (G : GraphOps) (feed : List (ℕ × ℚ)) (R : List ℕ)
    (hnodup : R.Nodup)
    (hordR : ∀ n ∈ R, ∀ c ∈ G.outbound n, R.indexOf c < R.indexOf n) :
    ∀ (rest P : List ℕ), R = P ++ rest →
    ∀ (st1 st2 b1 b2 : EState),
    (∀ n ∈ R, ∀ p ∈ G.inbound n, st1.value p = st2.value p) →
    (∀ n ∈ P, st1.grads n = st2.grads n) →
    backwardFold G feed rest st1 = .ok b1 →
    backwardFold G feed rest st2 = .ok b2 →
    ∀ n ∈ R, b1.grads n = b2.grads n := by
  intro rest
  induction rest with
  | nil =>
      intro P hRP st1 st2 b1 b2 hv hP h1 h2
      cases h1
      cases h2
      intro n hn
      exact hP n (by rwa [hRP, List.append_nil] at hn)
  | cons n rest ih =>
      intro P hRP st1 st2 b1 b2 hv hP h1 h2
      unfold backwardFold at h1 h2
      rw [List.foldlM_cons] at h1 h2
      cases hs1 : backwardStep G feed st1 n with
      | error e => rw [hs1, except_bind_error] at h1; cases h1
      | ok s1 =>
      rw [hs1, except_bind_ok] at h1
      cases hs2 : backwardStep G feed st2 n with
      | error e => rw [hs2, except_bind_error] at h2; cases h2
      | ok s2 =>
      rw [hs2, except_bind_ok] at h2
      have hnR : n ∈ R := by
        rw [hRP]
        exact List.mem_append_right P (List.mem_cons_self n rest)
      have hnP : n ∉ P := by
        intro hc
        have hnd := hnodup
        rw [hRP] at hnd
        rcases List.nodup_append.mp hnd with ⟨_, _, hdisj⟩
        exact hdisj hc (List.mem_cons_self n rest)
      have hidxn : R.indexOf n = P.length := by
        rw [hRP]
        exact indexOf_concat_self P n rest hnP
      have hcons : ∀ c ∈ G.outbound n, c ∈ P := by
        intro c hc
        have hlt := hordR n hnR c hc
        rw [hidxn] at hlt
        refine mem_prefix_of_indexOf_lt P (n :: rest) c ?_
        rwa [hRP] at hlt
      have hmapeq : backwardMap G feed st1 n = backwardMap G feed st2 n := by
        refine backwardMap_agree G feed st1 st2 n ?_ ?_
        · intro c hc
          rw [hP c (hcons c hc)]
        · intro p hp
          exact hv n hnR p hp
      rcases backwardStep_ok_shape G feed st1 n s1 hs1 with ⟨g1, hg1, rfl⟩
      rcases backwardStep_ok_shape G feed st2 n s2 hs2 with ⟨g2, hg2, rfl⟩
      have hgg : g1 = g2 := by
        rw [hmapeq] at hg1
        exact Except.ok.inj (hg1.symm.trans hg2)
      subst hgg
      refine ih (P ++ [n]) (by rw [hRP, List.append_assoc]; rfl)
        (setGrads st1 n g1) (setGrads st2 n g1) b1 b2 ?_ ?_ h1 h2
      · intro m hm p hp
        rw [setGrads_value, setGrads_value]
        exact hv m hm p hp
      · intro k hk
        rcases List.mem_append.mp hk with hkP | hkn
        · have hkn2 : k ≠ n := fun hc => hnP (hc ▸ hkP)
          rw [setGrads_grads_ne st1 n g1 k hkn2,
            setGrads_grads_ne st2 n g1 k hkn2]
          exact hP k hkP
        · rcases List.mem_singleton.mp hkn with rfl
          rw [setGrads_grads_eq, setGrads_grads_eq]

lemma readGrads_agree (st1 st2 : EState) :
    ∀ (ws : List ℕ), (∀ w ∈ ws, st1.grads w w = st2.grads w w) →
    readGrads st1 ws = readGrads st2 ws := by
  intro ws
  induction ws with
  | nil => intro _; rfl
  | cons w ws ih =>
      intro hw
      unfold readGrads
      rw [hw w (List.mem_cons_self w ws),
        ih fun x hx => hw x (List.mem_cons_of_mem w hx)]

lemma topo_some_keys (out : ℕ → List ℕ) (roots : List ℕ) (f1 f2 : ℕ)
    (L : List ℕ) (h : topological_sort out f1 f2 roots = some L) :
    ∀ k, k ∈ keysOf out f1 roots ↔ Reach out roots k := by
  unfold topological_sort at h
  rcases hd : discoverLoop out f1 roots DState.empty with ⟨wl, st⟩
  rw [hd] at h
  cases wl with
  | cons a l => cases h
  | nil =>
      intro k
      unfold keysOf
      rw [hd]
      exact (discover_final out roots f1 st hd).1 k

/-- C2: determinism of `evaluate` as a two-run property.  Under the
evaluation preconditions of the spec (the graph is finite and acyclic, the
feed keys are true sources, the discovered graph is closed under operands,
and the terminal and every `wrt` node are discovered), two successful calls
of `value_and_grad` with identical feed values — whatever mutable state each
starts from, in particular the state the previous evaluation left behind —
return identical output value and identical gradient list. -/
theorem evaluate_deterministic (G : GraphOps) (N : ℕ) (h : ℕ → ℕ)
    (f1 f2 : ℕ) (node : ℕ) (feed : List (ℕ × ℚ)) (wrt : List ℕ)
    (st1 st2 : EState) (p1 p2 : Option ℚ × List ℚ)
    (h1 : ∀ r ∈ feed.map Prod.fst, r < N)
    (h2 : ∀ n, n < N → ∀ m ∈ G.outbound n, m < N)
    (h3 : ∀ n, n < N → ∀ m ∈ G.outbound n, h m < h n)
    (h4 : ∀ n, n < N → (G.outbound n).Nodup)
    (h6 : ∀ r ∈ feed.map Prod.fst, ∀ p, p < N → r ∉ G.outbound p)
    (hmem : ∀ a, a < N → ∀ b, b < N → (b ∈ G.outbound a ↔ a ∈ G.inbound b))
    (hterm : node ∈ keysOf G.outbound f1 (feed.map Prod.fst))
    (hwrt : ∀ w ∈ wrt, w ∈ keysOf G.outbound f1 (feed.map Prod.fst))
    (hclo : ∀ n ∈ keysOf G.outbound f1 (feed.map Prod.fst),
      ∀ p ∈ G.inbound n, p ∈ keysOf G.outbound f1 (feed.map Prod.fst))
    (e1 : value_and_grad G f1 f2 node feed wrt st1 = .ok p1)
    (e2 : value_and_grad G f1 f2 node feed wrt st2 = .ok p2) :
    p1 = p2 := by
  unfold value_and_grad at e1 e2
  by_cases hout : G.outbound node = []
  case neg =>
      rw [if_neg hout] at e1
      cases e1
  case pos =>
  rw [if_pos hout] at e1 e2
  cases ht : topological_sort G.outbound f1 f2 (feed.map Prod.fst) with
  | none =>
      rw [ht] at e1
      cases e1
  | some nodes =>
  rw [ht] at e1 e2
  dsimp only at e1 e2
  have hkeys := topo_some_keys G.outbound (feed.map Prod.fst) f1 f2 nodes ht
  rcases topological_sort_props G.outbound (feed.map Prod.fst) N h h1 h2 h3
    h4 h6 f1 f2 nodes ht with ⟨hnd, hmemL, hord⟩
  have hreach_lt := reach_lt G.outbound (feed.map Prod.fst) N h1 h2
  have hinbL : ∀ n ∈ nodes, ∀ p ∈ G.inbound n, p ∈ nodes := by
    intro n hn p hp
    have hreach_n := (hmemL n).mp hn
    have hkp := hclo n ((hkeys n).mpr hreach_n) p hp
    exact (hmemL p).mpr ((hkeys p).mp hkp)
  have hinb_order : ∀ n ∈ nodes, ∀ p ∈ G.inbound n,
      nodes.indexOf p < nodes.indexOf n := by
    intro n hn p hp
    have hreach_n := (hmemL n).mp hn
    have hkp := hclo n ((hkeys n).mpr hreach_n) p hp
    have hreach_p := (hkeys p).mp hkp
    have hout_pn : n ∈ G.outbound p :=
      (hmem p (hreach_lt p hreach_p) n (hreach_lt n hreach_n)).mpr hp
    exact (hord p n hreach_p hout_pn).2.2
  cases hf1 : forwardFold G feed nodes st1 with
  | error e => rw [hf1] at e1; cases e1
  | ok fst1 =>
  rw [hf1] at e1
  dsimp only at e1
  cases hf2 : forwardFold G feed nodes st2 with
  | error e => rw [hf2] at e2; cases e2
  | ok fst2 =>
  rw [hf2] at e2
  dsimp only at e2
  cases hb1 : backwardFold G feed nodes.reverse fst1 with
  | error e => rw [hb1] at e1; cases e1
  | ok bst1 =>
  rw [hb1] at e1
  dsimp only at e1
  cases hb2 : backwardFold G feed nodes.reverse fst2 with
  | error e => rw [hb2] at e2; cases e2
  | ok bst2 =>
  rw [hb2] at e2
  dsimp only at e2
  have hfagree : ∀ n ∈ nodes, fst1.value n = fst2.value n :=
    forwardFold_agree G feed nodes hnd hinb_order nodes [] rfl st1 st2
      fst1 fst2 (fun n hn => absurd hn (List.not_mem_nil n)) hf1 hf2
  have hndR : nodes.reverse.Nodup := List.nodup_reverse.mpr hnd
  have hordR : ∀ n ∈ nodes.reverse, ∀ c ∈ G.outbound n,
      nodes.reverse.indexOf c < nodes.reverse.indexOf n := by
    intro n hnR c hc
    have hn : n ∈ nodes := List.mem_reverse.mp hnR
    have hreach_n := (hmemL n).mp hn
    have hcL : c ∈ nodes := (hmemL c).mpr (Reach.step hreach_n hc)
    have hlt : nodes.indexOf n < nodes.indexOf c := (hord n c hreach_n hc).2.2
    rw [indexOf_reverse_eq nodes hnd c hcL, indexOf_reverse_eq nodes hnd n hn]
    have hbc := List.indexOf_lt_length.mpr hcL
    omega
  have hbagree : ∀ n ∈ nodes.reverse, bst1.grads n = bst2.grads n := by
    refine backwardFold_agree G feed nodes.reverse hndR hordR nodes.reverse
      [] rfl fst1 fst2 bst1 bst2 ?_
      (fun n hn => absurd hn (List.not_mem_nil n)) hb1 hb2
    intro n hnR p hp
    exact hfagree p (hinbL n (List.mem_reverse.mp hnR) p hp)
  have hnodeL : node ∈ nodes := (hmemL node).mpr ((hkeys node).mp hterm)
  have hval1 := backwardFold_value G feed nodes.reverse fst1 bst1 hb1
  have hval2 := backwardFold_value G feed nodes.reverse fst2 bst2 hb2
  have hvnode : bst1.value node = bst2.value node := by
    rw [hval1, hval2]
    exact hfagree node hnodeL
  have hrg : readGrads bst1 wrt = readGrads bst2 wrt := by
    refine readGrads_agree bst1 bst2 wrt ?_
    intro w hw
    have hwL : w ∈ nodes := (hmemL w).mpr ((hkeys w).mp (hwrt w hw))
    rw [hbagree w (List.mem_reverse.mpr hwL)]
  cases hg1 : readGrads bst1 wrt with
  | error e => rw [hg1] at e1; cases e1
  | ok gs1 =>
  rw [hg1] at e1
  dsimp only at e1
  cases hg2 : readGrads bst2 wrt with
  | error e => rw [hg2] at e2; cases e2
  | ok gs2 =>
  rw [hg2] at e2
  dsimp only at e2
  have hgs : gs1 = gs2 := by
    rw [hrg] at hg1
    exact Except.ok.inj (hg1.symm.trans hg2)
  cases e1
  cases e2
  rw [hvnode, hgs]

/-- Witness for C2: the same call on `g4` from a blank state and from a
garbage-filled state returns the same pair. -/
theorem evaluate_deterministic_witness :
    (∀ r ∈ [((0:ℕ), (3:ℚ)), (1, 4)].map Prod.fst, ∀ p, p < 3 →
      r ∉ g4.outbound p) ∧
    ((some (7:ℚ), [(0:ℚ), 0]) = (some (7:ℚ), [(0:ℚ), 0])) :=
  ⟨by decide,
    evaluate_deterministic g4 3 (fun n => if n = 2 then 0 else 1) 10 10 2
      [(0, 3), (1, 4)] [0, 1] blankState
      ⟨fun _ => some 77, fun _ _ => some 88⟩
      (some 7, [0, 0]) (some 7, [0, 0])
      (by decide) (by decide) (by decide) (by decide) (by decide) (by decide)
      (by decide) (by decide) (by decide)
      (by with_unfolding_all decide) (by with_unfolding_all decide)⟩

end TinyFlow
